import Mathlib

/-!
# Verification of the disktidy scan/duplicate-detection core

A shallow embedding, in Lean 4, of the core of the `disktidy` repository:

* `src-tauri/src/utils/hash.rs` — `HashCalculator` (partial/full hashing with an
  mtime/size-validated LRU cache, `quick_compare`);
* `src-tauri/src/modules/file_analyzer/duplicate.rs` — `DuplicateDetector`
  (scan → size bucketing → partial-hash bucketing → full-hash grouping →
  finalize pipeline, deletion suggestions);
* `src-tauri/src/modules/scanner_framework.rs` — `ScanManager`
  (pause/resume/cancel control surface over per-scan progress, result and
  controller maps).

Modelling conventions:

* The filesystem is a value (`ModelFS`): an association list from path strings
  to file data (byte content, mtime in whole seconds, a `readable` flag that
  models per-file I/O failure on open/read), plus, per scan root, the stream of
  `walkdir` entries (`Ok` file entry or a traversal error).
* SHA-256 is modelled by an arbitrary digest function `σ : List Nat → String`
  passed explicitly; the code under verification never inspects digests, it
  only compares and stores them.
* Rust `HashMap`s built by `entry(..).or_default().push(..)` are modelled as
  association lists whose keys appear in first-insertion order; this fixes one
  concrete iteration order (Rust's is arbitrary), so order-sensitive statements
  are made up to permutation where the source leaves order unspecified.
* `Vec::sort_by` is a stable sort; it is modelled by a stable insertion sort.
* Wall-clock time (uuid scan ids, `duration_ms`, tokio timeouts) is not
  modelled: the timeout wrapper never fires in the model and `scan_id` /
  `duration_ms` are constants.
-/

namespace DiskTidy

/-! ## Association-list helpers (model of `HashMap` / `LruCache` operations) -/

/-- Lookup in an association list (model of `HashMap::get`). -/
def alookup {κ ν : Type} [DecidableEq κ] : List (κ × ν) → κ → Option ν
  | [], _ => none
  | p :: r, key => if p.1 = key then some p.2 else alookup r key

/-- Model of `map.entry(key).or_default().push(x)`: append `x` to the entry of
`key`, creating the entry at the end of the list if absent (keys therefore
appear in first-insertion order). -/
def pushEntry {κ ν : Type} [DecidableEq κ] : List (κ × List ν) → κ → ν → List (κ × List ν)
  | [], key, x => [(key, [x])]
  | p :: r, key, x =>
    if p.1 = key then (p.1, p.2 ++ [x]) :: r else p :: pushEntry r key x

/-- Model of `map.get_mut(key)` followed by a mutation: apply `f` to the value
stored at `key` (keys are unique in every map the model builds), a no-op when
the key is absent. -/
def setAssoc {κ ν : Type} [DecidableEq κ] : List (κ × ν) → κ → (ν → ν) → List (κ × ν)
  | [], _, _ => []
  | p :: r, key, f =>
    if p.1 = key then (p.1, f p.2) :: r else p :: setAssoc r key f

/-- Model of `map.insert(key, v)`: replace any existing entry, else append. -/
def insertAssoc {κ ν : Type} [DecidableEq κ] : List (κ × ν) → κ → ν → List (κ × ν)
  | [], key, v => [(key, v)]
  | p :: r, key, v =>
    if p.1 = key then (key, v) :: r else p :: insertAssoc r key v

/-- Model of `map.remove(key)`. -/
def removeAssoc {κ ν : Type} [DecidableEq κ] : List (κ × ν) → κ → List (κ × ν)
  | [], _ => []
  | p :: r, key => if p.1 = key then removeAssoc r key else p :: removeAssoc r key

/-! ## Filesystem model

A file is its byte content (`List Nat`), an mtime in whole seconds since the
epoch (the code stores `duration_since(UNIX_EPOCH).as_secs()`), and a
`readable` flag: `readable = false` models a per-file I/O failure on
`File::open`/read (permission denied and the like). A path has metadata
exactly when it has an entry in `files`; `metadata.len()` is the content
length. `walks` gives, per scan root, the `walkdir` entry stream: regular
file entries or traversal errors; a root absent from `walks` models
`!scan_path.exists()`. -/

/-- One `walkdir` entry: an `Ok` entry for a regular file, or an `Err`. -/
inductive WalkEntry : Type where
  | ok (path : String)
  | err
deriving DecidableEq, Repr

def WalkEntry.okPath : WalkEntry → Option String
  | .ok p => some p
  | .err => none

structure FSFile where
  content : List Nat
  mtime : Nat
  readable : Bool
deriving DecidableEq, Repr

/-- `metadata.len()`. -/
def FSFile.size (f : FSFile) : Nat := f.content.length

structure ModelFS where
  files : List (String × FSFile)
  walks : List (String × List WalkEntry)
deriving DecidableEq, Repr

/-- `fs::metadata(path)` / `File::open(path)` target. -/
def ModelFS.lookupFile (fs : ModelFS) (path : String) : Option FSFile :=
  alookup fs.files path

/-! ## HashCalculator (`src-tauri/src/utils/hash.rs`)

SHA-256 is abstracted as a digest function `σ : List Nat → String` passed to
every hashing operation; streaming the file through the hasher in 64 KiB
chunks digests the concatenation of the chunks, i.e. the whole content, so the
streaming loops are modelled as `σ` applied to the content read. The cache
`Mutex` becomes explicit state passing: stateful operations return the updated
calculator. The tokio timeout around `calculate_file_hash` and the wall-clock
budget of `calculate_large_file_hash` cannot fire in a timeless model. -/

def BUFFER_SIZE : Nat := 64 * 1024
def PARTIAL_HASH_SIZE : Nat := 64 * 1024
def DEFAULT_CACHE_SIZE : Nat := 1000
def DEFAULT_TIMEOUT_SECS : Nat := 30
def LARGE_FILE_THRESHOLD : Nat := 100 * 1024 * 1024

structure CachedHash where
  hash : String
  modified_time : Nat
  file_size : Nat
deriving DecidableEq, Repr

structure HashResult where
  hash : String
  is_partial : Bool
  bytes_processed : Nat
deriving DecidableEq, Repr

inductive DiskTidyError : Type where
  | IoError
  | HashCalculationTimeout (path : String)
deriving DecidableEq, Repr

structure HashCalculator where
  cache : List (String × CachedHash)
  cacheCap : Nat
  cache_enabled : Bool
  timeout_secs : Nat
deriving DecidableEq, Repr

def HashCalculator.new : HashCalculator :=
  ⟨[], DEFAULT_CACHE_SIZE, true, DEFAULT_TIMEOUT_SECS⟩

def HashCalculator.with_cache (enabled : Bool) : HashCalculator :=
  ⟨[], DEFAULT_CACHE_SIZE, enabled, DEFAULT_TIMEOUT_SECS⟩

def HashCalculator.with_cache_and_size (enabled : Bool) (max_size : Nat) : HashCalculator :=
  ⟨[], max max_size 1, enabled, DEFAULT_TIMEOUT_SECS⟩

/-- `LruCache` model: the list is ordered most-recently-used first.
`get` returns the entry and promotes it to the front. -/
def lruGet (c : List (String × CachedHash)) (k : String) :
    Option CachedHash × List (String × CachedHash) :=
  match alookup c k with
  | none => (none, c)
  | some v => (some v, (k, v) :: removeAssoc c k)

/-- `LruCache::put`: insert/replace at the front, evicting the
least-recently-used entry when the capacity is exceeded. -/
def lruPut (cap : Nat) (c : List (String × CachedHash)) (k : String) (v : CachedHash) :
    List (String × CachedHash) :=
  ((k, v) :: removeAssoc c k).take cap

/-- `calculate_partial_hash`: open the file, fill a 64 KiB buffer with one
read (`min (file size) 64KiB` bytes of a regular file), and digest exactly the
bytes read. Stateless: it never touches the cache. -/
def HashCalculator.calculate_partial_hash (σ : List Nat → String) (fs : ModelFS)
    (path : String) : Except DiskTidyError HashResult :=
  match fs.lookupFile path with
  | none => .error .IoError
  | some f =>
    if f.readable then
      .ok ⟨σ (f.content.take PARTIAL_HASH_SIZE), true, (f.content.take PARTIAL_HASH_SIZE).length⟩
    else .error .IoError

/-- The shared tail of `calculate_file_hash_internal` and
`calculate_large_file_hash`: stream the whole content through the hasher,
then store the digest in the cache (when enabled) keyed by the path together
with the mtime and size observed at open time. -/
def HashCalculator.hashAndCache (σ : List Nat → String) (hc : HashCalculator) (f : FSFile)
    (path : String) : Except DiskTidyError HashResult × HashCalculator :=
  let h := σ f.content
  let hc2 :=
    if hc.cache_enabled then
      { hc with cache := lruPut hc.cacheCap hc.cache path ⟨h, f.mtime, f.size⟩ }
    else hc
  (.ok ⟨h, false, f.content.length⟩, hc2)

/-- `calculate_large_file_hash`: in the model the wall-clock budget cannot be
exceeded, so this is the same streaming loop plus cache store. -/
def HashCalculator.calculate_large_file_hash (σ : List Nat → String) (hc : HashCalculator)
    (f : FSFile) (path : String) : Except DiskTidyError HashResult × HashCalculator :=
  HashCalculator.hashAndCache σ hc f path

/-- `calculate_file_hash_internal`: open (fails when the file is missing or
unreadable), read metadata, consult the cache when enabled — a hit is returned
only when both the cached mtime and the cached size equal the file's current
metadata (`lru.get` promotes the probed entry even on a mismatch) — otherwise
dispatch on the large-file threshold and recompute from the current content. -/
def HashCalculator.calculate_file_hash_internal (σ : List Nat → String) (hc : HashCalculator)
    (fs : ModelFS) (path : String) : Except DiskTidyError HashResult × HashCalculator :=
  match fs.lookupFile path with
  | none => (.error .IoError, hc)
  | some f =>
    if f.readable then
      if hc.cache_enabled then
        match alookup hc.cache path with
        | some cached =>
          let promoted := (path, cached) :: removeAssoc hc.cache path
          if cached.modified_time = f.mtime ∧ cached.file_size = f.size then
            (.ok ⟨cached.hash, false, f.size⟩, { hc with cache := promoted })
          else if f.size > LARGE_FILE_THRESHOLD then
            HashCalculator.calculate_large_file_hash σ { hc with cache := promoted } f path
          else
            HashCalculator.hashAndCache σ { hc with cache := promoted } f path
        | none =>
          if f.size > LARGE_FILE_THRESHOLD then
            HashCalculator.calculate_large_file_hash σ hc f path
          else
            HashCalculator.hashAndCache σ hc f path
      else
        if f.size > LARGE_FILE_THRESHOLD then
          HashCalculator.calculate_large_file_hash σ hc f path
        else
          HashCalculator.hashAndCache σ hc f path
    else (.error .IoError, hc)

/-- `calculate_file_hash`: the tokio timeout wrapper never fires in the
timeless model, so this is `calculate_file_hash_internal`. -/
def HashCalculator.calculate_file_hash (σ : List Nat → String) (hc : HashCalculator)
    (fs : ModelFS) (path : String) : Except DiskTidyError HashResult × HashCalculator :=
  HashCalculator.calculate_file_hash_internal σ hc fs path

/-- `HashCalculator::quick_compare`: partial hashes of both files first; full
hashes only when the partial hashes agree. The third component instruments the
model with the list of paths on which `calculate_file_hash` was invoked (used
to state that mismatching files are rejected without any full-content read);
it is observability only and does not influence the computation. -/
def HashCalculator.quick_compare (σ : List Nat → String) (hc : HashCalculator) (fs : ModelFS)
    (path1 path2 : String) : Except DiskTidyError Bool × HashCalculator × List String :=
  match HashCalculator.calculate_partial_hash σ fs path1 with
  | .error e => (.error e, hc, [])
  | .ok h1 =>
    match HashCalculator.calculate_partial_hash σ fs path2 with
    | .error e => (.error e, hc, [])
    | .ok h2 =>
      if h1.hash ≠ h2.hash then (.ok false, hc, [])
      else
        match HashCalculator.calculate_file_hash σ hc fs path1 with
        | (.error e, c1) => (.error e, c1, [path1])
        | (.ok f1, c1) =>
          match HashCalculator.calculate_file_hash σ c1 fs path2 with
          | (.error e, c2) => (.error e, c2, [path1, path2])
          | (.ok f2, c2) => (.ok (f1.hash == f2.hash), c2, [path1, path2])

/-! ## String and path utilities (`src-tauri/src/utils/path.rs`, `file_type.rs`) -/

/-- Substring test on lists, model of `str::contains`. -/
def containsSub {α : Type} [DecidableEq α] (needle : List α) : List α → Bool
  | [] => needle.isEmpty
  | c :: rest => needle.isPrefixOf (c :: rest) || containsSub needle rest

/-- `hay.contains(needle)` on strings. -/
def strContains (hay needle : String) : Bool :=
  containsSub needle.data hay.data

/-- ASCII-wise `str::to_lowercase` (character-list based so that the kernel
can evaluate it on concrete inputs). -/
def strToLower (s : String) : String :=
  String.mk (s.data.map Char.toLower)

/-- Split a character list on a separator (model of `str::split`). -/
def splitOnChar (sep : Char) : List Char → List (List Char)
  | [] => [[]]
  | c :: rest =>
    let r := splitOnChar sep rest
    if c = sep then [] :: r
    else
      match r with
      | [] => [[c]]
      | h :: t => (c :: h) :: t

/-- `PathUtils::get_filename`: the final path component. Paths are plain
strings in the model; both separators are recognised. -/
def get_filename (p : String) : Option String :=
  let comps := splitOnChar '/' (p.data.map (fun c => if c = '\\' then '/' else c))
  match comps.getLast? with
  | some s => if s = [] then none else some (String.mk s)
  | none => none

/-- `PathUtils::get_extension`: the lowercased extension of the final
component (`None` when there is no dot, or only the leading dot of a
dotfile). -/
def get_extension (p : String) : Option String :=
  match get_filename p with
  | none => none
  | some name =>
    match splitOnChar (Char.ofNat 46) name.data with
    | [] => none
    | [_] => none
    | [[], _] => none
    | parts => parts.getLast?.map (fun l => String.mk (l.map Char.toLower))

/-- `get_file_type` (`src-tauri/src/utils/file_type.rs`): map an extension to
its display category. -/
def get_file_type (extension : String) : String :=
  let ext := strToLower extension
  if ["mp4", "mkv", "avi", "mov", "wmv", "flv", "webm", "m4v", "mpg", "mpeg", "3gp",
      "m2ts", "mts"].contains ext then "视频"
  else if ["mp3", "flac", "wav", "aac", "ogg", "wma", "m4a", "opus", "ape"].contains ext then
    "音频"
  else if ["jpg", "jpeg", "png", "gif", "bmp", "tiff", "webp", "raw", "heic", "svg", "ico",
      "psd", "ai", "eps"].contains ext then "图片"
  else if ["zip", "rar", "7z", "tar", "gz", "bz2", "xz", "tgz", "tbz", "cab"].contains ext then
    "压缩包"
  else if ["exe", "msi", "bat", "cmd", "sh", "ps1", "vbs", "jar", "app", "dmg", "pkg", "deb",
      "rpm", "apk"].contains ext then "可执行文件"
  else if ["iso", "img", "vhd", "vhdx", "vmdk", "qcow2"].contains ext then "磁盘镜像"
  else if ["pdf", "doc", "docx", "xls", "xlsx", "ppt", "pptx", "odt", "ods", "odp", "rtf",
      "epub", "mobi", "azw", "azw3", "md"].contains ext then "文档"
  else if ["db", "sqlite", "sqlite3", "mdb", "accdb", "dbf"].contains ext then "数据库"
  else if ["log", "csv", "tsv", "ini"].contains ext then "文本文件"
  else if ["json", "xml", "yaml", "yml", "toml", "conf", "config", "cfg", "properties",
      "env", "htaccess"].contains ext then "配置文件"
  else if ["dll", "sys", "drv", "ocx", "cpl", "scr", "fon"].contains ext then "系统文件"
  else if ["c", "cpp", "h", "hpp", "cs", "java", "py", "rb", "php", "go", "rs", "swift",
      "kt", "scala", "r", "m", "mm", "pl", "lua", "ts", "tsx", "jsx", "vue", "sass",
      "scss", "less", "css", "html", "htm", "js"].contains ext then "代码文件"
  else if ["ttf", "otf", "woff", "woff2", "eot"].contains ext then "字体文件"
  else if ["bak", "old", "backup", "orig"].contains ext then "备份文件"
  else if ["tmp", "temp", "swp", "swo"].contains ext then "临时文件"
  else "其他"

/-! ## Stable sort (model of `Vec::sort_by`, which is a stable sort) -/

/-- Insert `x` after every already-placed element `y` with `le y x`, i.e.
strictly before the first element that must follow it — the insertion step of
a stable insertion sort. -/
def insertStable {α : Type} (le : α → α → Bool) (x : α) : List α → List α
  | [] => [x]
  | y :: ys => if le y x then y :: insertStable le x ys else x :: y :: ys

/-- Stable insertion sort: elements are inserted in list order, each after
the equal elements already placed, so ties keep their original order, exactly
as `Vec::sort_by` guarantees. -/
def stableSortBy {α : Type} (le : α → α → Bool) (l : List α) : List α :=
  l.foldl (fun acc x => insertStable le x acc) []

/-! ## DuplicateDetector (`src-tauri/src/modules/file_analyzer/duplicate.rs`)

The progress-callback plumbing (`report_progress`, percentage bands) has no
effect on the returned value and is dropped; `find_duplicates` and
`find_duplicates_with_progress` compute the same `find_duplicates_internal`
result. `uuid` scan ids and wall-clock durations are modelled as constants.
The `#[cfg(windows)]` hidden-attribute check in `should_skip` is absent from
the non-windows build modelled here. -/

structure DuplicateDetectorOptions where
  min_size : Nat
  max_size : Option Nat
  include_hidden : Bool
  use_cache : Bool
deriving DecidableEq, Repr

def DuplicateDetectorOptions.default : DuplicateDetectorOptions :=
  ⟨1024 * 1024, none, false, true⟩

structure DuplicateFile where
  path : String
  name : String
  modified_time : Nat
  is_original : Bool
deriving DecidableEq, Repr

structure DuplicateGroup where
  hash : String
  size : Nat
  files : List DuplicateFile
  wasted_space : Nat
  file_type : String
deriving DecidableEq, Repr

structure DuplicateAnalysisResult where
  scan_id : String
  total_groups : Nat
  total_files : Nat
  total_size : Nat
  wasted_space : Nat
  groups : List DuplicateGroup
  duration_ms : Nat
deriving DecidableEq, Repr

structure DuplicateDetector where
  options : DuplicateDetectorOptions
  hash_calculator : HashCalculator
  protected_paths : List String
deriving DecidableEq, Repr

/-- `DuplicateDetector::with_options`; `SystemPaths::get_protected_paths()` is
a platform-dependent constant list, taken here as a parameter. -/
def DuplicateDetector.with_options (options : DuplicateDetectorOptions)
    (protected_paths : List String) : DuplicateDetector :=
  ⟨options, HashCalculator.with_cache options.use_cache, protected_paths⟩

/-- `should_skip`: protected-path prefixes, then (when metadata is readable)
the configured size range. A metadata error skips the size checks and the
file is not skipped. -/
def DuplicateDetector.should_skip (det : DuplicateDetector) (fs : ModelFS)
    (path : String) : Bool :=
  if det.protected_paths.any (fun pre => pre.isPrefixOf path) then true
  else
    match fs.lookupFile path with
    | some metadata =>
      if metadata.size < det.options.min_size then true
      else
        match det.options.max_size with
        | some mx => decide (metadata.size > mx)
        | none => false
    | none => false

/-- `scan_files`: per root, walk the entry stream (roots without a stream do
not exist and are skipped), keep `Ok` file entries (`filter_map(|e| e.ok())`),
drop entries `should_skip` rejects. -/
def DuplicateDetector.scan_files (det : DuplicateDetector) (fs : ModelFS)
    (paths : List String) : List String :=
  (paths.map (fun scan_path =>
    match alookup fs.walks scan_path with
    | none => []
    | some entries =>
      (entries.filterMap WalkEntry.okPath).filter
        (fun p => ! DuplicateDetector.should_skip det fs p))).flatten

/-- `group_by_size`: bucket by `metadata.len()` (metadata errors drop the
entry here), re-checking `min_size`, then discard singleton buckets. -/
def DuplicateDetector.group_by_size (det : DuplicateDetector) (fs : ModelFS)
    (files : List String) : List (Nat × List String) :=
  (files.foldl (fun groups path =>
    match fs.lookupFile path with
    | some metadata =>
      if metadata.size ≥ det.options.min_size then pushEntry groups metadata.size path
      else groups
    | none => groups) []).filter (fun e => e.2.length > 1)

/-- `calculate_partial_hashes`: partial hash of every file of a bucket,
dropping files whose hashing fails. -/
def DuplicateDetector.calculate_partial_hashes (σ : List Nat → String) (fs : ModelFS)
    (files : List String) : List (String × String) :=
  files.filterMap (fun path =>
    match HashCalculator.calculate_partial_hash σ fs path with
    | .ok hr => some (path, hr.hash)
    | .error _ => none)

/-- One full-hash step of `calculate_and_group_by_hash`: on success push
`(path, size)` under the full hash, on failure skip the file; either way the
calculator state advances. -/
def DuplicateDetector.hashPush (σ : List Nat → String) (fs : ModelFS) (size : Nat)
    (st : List (String × List (String × Nat)) × HashCalculator) (path : String) :
    List (String × List (String × Nat)) × HashCalculator :=
  match HashCalculator.calculate_file_hash σ st.2 fs path with
  | (.ok hr, hc2) => (pushEntry st.1 hr.hash (path, size), hc2)
  | (.error _, hc2) => (st.1, hc2)

/-- The body of `calculate_and_group_by_hash` for one size bucket: partial
hashes, sub-bucket by partial hash, then full-hash every sub-bucket that has
at least two members. -/
def DuplicateDetector.processBucket (σ : List Nat → String) (fs : ModelFS)
    (st : List (String × List (String × Nat)) × HashCalculator) (bucket : Nat × List String) :
    List (String × List (String × Nat)) × HashCalculator :=
  let partial_hashes := DuplicateDetector.calculate_partial_hashes σ fs bucket.2
  let partial_groups := partial_hashes.foldl (fun m ph => pushEntry m ph.2 ph.1) []
  partial_groups.foldl (fun st2 pg =>
    if pg.2.length > 1 then pg.2.foldl (DuplicateDetector.hashPush σ fs bucket.1) st2 else st2) st

/-- `calculate_and_group_by_hash`: process every size bucket, then discard
full-hash groups with fewer than two members. -/
def DuplicateDetector.calculate_and_group_by_hash (σ : List Nat → String)
    (det : DuplicateDetector) (fs : ModelFS) (size_groups : List (Nat × List String)) :
    List (String × List (String × Nat)) × HashCalculator :=
  let st := size_groups.foldl (DuplicateDetector.processBucket σ fs) ([], det.hash_calculator)
  (st.1.filter (fun e => e.2.length > 1), st.2)

/-- The `modified_time` read of `create_duplicate_groups`:
`fs::metadata(..).modified()..unwrap_or(0)`. -/
def mtimeOf (fs : ModelFS) (path : String) : Nat :=
  match fs.lookupFile path with
  | some f => f.mtime
  | none => 0

/-- `duplicate_files[0].is_original = true` after the sort (the pre-sort flags
are left as they are — this is the source's exact behaviour). -/
def markFirstOriginal : List DuplicateFile → List DuplicateFile
  | [] => []
  | x :: xs => { x with is_original := true } :: xs

/-- `create_duplicate_groups`: each full-hash group with ≥ 2 members becomes a
`DuplicateGroup`: `size` is taken from the first member, members are built
with `is_original = (index == 0)`, stably sorted by `modified_time`, the head
of the sorted list is marked original, and the groups are sorted by
`wasted_space` descending. -/
def DuplicateDetector.create_duplicate_groups (fs : ModelFS)
    (hash_groups : List (String × List (String × Nat))) : List DuplicateGroup :=
  let gs := hash_groups.filterMap (fun hg =>
    if hg.2.length < 2 then none
    else
      let size := (hg.2.headD ("", 0)).2
      let wasted_space := size * (hg.2.length - 1)
      let duplicate_files := hg.2.enum.map (fun ip =>
        { path := ip.2.1,
          name := (get_filename ip.2.1).getD "",
          modified_time := mtimeOf fs ip.2.1,
          is_original := ip.1 == 0 : DuplicateFile })
      let sorted := markFirstOriginal
        (stableSortBy (fun a b => decide (a.modified_time ≤ b.modified_time)) duplicate_files)
      let file_type :=
        match sorted.head? with
        | some f => get_file_type ((get_extension f.path).getD "")
        | none => ""
      some { hash := hg.1, size := size, files := sorted,
             wasted_space := wasted_space, file_type := file_type })
  stableSortBy (fun a b => decide (b.wasted_space ≤ a.wasted_space)) gs

/-- `find_duplicates_internal` (the progress callback does not influence the
result and is dropped). -/
def DuplicateDetector.find_duplicates_internal (σ : List Nat → String)
    (det : DuplicateDetector) (fs : ModelFS) (paths : List String) : List DuplicateGroup :=
  let files := DuplicateDetector.scan_files det fs paths
  let size_groups := DuplicateDetector.group_by_size det fs files
  let hash_groups := (DuplicateDetector.calculate_and_group_by_hash σ det fs size_groups).1
  DuplicateDetector.create_duplicate_groups fs hash_groups

/-- `find_duplicates` (also the result shape of
`find_duplicates_with_progress`): totals are folds over the returned groups;
`scan_id` (a fresh uuid) and `duration_ms` (wall clock) are modelled as
constants. -/
def DuplicateDetector.find_duplicates (σ : List Nat → String) (det : DuplicateDetector)
    (fs : ModelFS) (paths : List String) : DuplicateAnalysisResult :=
  let duplicate_groups := DuplicateDetector.find_duplicates_internal σ det fs paths
  { scan_id := "",
    total_groups := duplicate_groups.length,
    total_files := (duplicate_groups.map (fun g => g.files.length)).sum,
    total_size := (duplicate_groups.map (fun g => g.size * g.files.length)).sum,
    wasted_space := (duplicate_groups.map (fun g => g.wasted_space)).sum,
    groups := duplicate_groups,
    duration_ms := 0 }

/-- `DuplicateDetector::quick_compare`: metadata of both paths (a failure
returns `false`), size comparison first, then the calculator's
`quick_compare` with `unwrap_or(false)`. The `List String` component is the
instrumentation of full-hash invocations, threaded through from the
calculator. -/
def DuplicateDetector.quick_compare (σ : List Nat → String) (det : DuplicateDetector)
    (fs : ModelFS) (path1 path2 : String) : Bool × HashCalculator × List String :=
  match fs.lookupFile path1 with
  | none => (false, det.hash_calculator, [])
  | some meta1 =>
    match fs.lookupFile path2 with
    | none => (false, det.hash_calculator, [])
    | some meta2 =>
      if meta1.size ≠ meta2.size then (false, det.hash_calculator, [])
      else
        match HashCalculator.quick_compare σ det.hash_calculator fs path1 path2 with
        | (.ok b, hc, calls) => (b, hc, calls)
        | (.error _, hc, calls) => (false, hc, calls)

/-- `calculate_delete_score`: +50 under `\temp\`, +30 under `\downloads\`,
−20 under `\desktop\`, −30 under `\documents\`, −100 for the original. -/
def DuplicateDetector.calculate_delete_score (file : DuplicateFile) : Int :=
  let path_lower := strToLower file.path
  let s1 : Int := if strContains path_lower "\\temp\\" then 0 + 50 else 0
  let s2 := if strContains path_lower "\\downloads\\" then s1 + 30 else s1
  let s3 := if strContains path_lower "\\desktop\\" then s2 - 20 else s2
  let s4 := if strContains path_lower "\\documents\\" then s3 - 30 else s3
  if file.is_original then s4 - 100 else s4

/-- `suggest_files_to_delete`: score every member, sort `(index, score)`
pairs by score descending (stably), take the index of the **first pair with a
negative score** in that order (default index 0), and return the paths of all
other members. -/
def DuplicateDetector.suggest_files_to_delete (group : DuplicateGroup) : List String :=
  if group.files.length < 2 then []
  else
    let files_with_scores := group.files.enum.map
      (fun ifile => (ifile.1, DuplicateDetector.calculate_delete_score ifile.2))
    let sorted := stableSortBy (fun a b => decide (b.2 ≤ a.2)) files_with_scores
    let original_index := ((sorted.find? (fun p => decide (p.2 < 0))).map (fun p => p.1)).getD 0
    (group.files.enum.filter (fun ifile => ifile.1 ≠ original_index)).map
      (fun ifile => ifile.2.path)

/-- `suggest_original`: the first member flagged as original. -/
def DuplicateDetector.suggest_original (group : DuplicateGroup) : Option DuplicateFile :=
  group.files.find? (fun f => f.is_original)

/-! ## ScanManager (`src-tauri/src/modules/scanner_framework.rs`)

`ScanStatus` is taken from `src-tauri/src/models/scan.rs`; note that the
enum has no `Cancelled` variant. The manager owns three maps keyed by scan
id: progress (abstracted to the status field, the only part of a generic `P`
the framework itself reads or writes, via `ScanProgress::set_status`),
results, and controllers (the pause/cancel `watch` flags). The spawned task
is modelled by the two manager-side termination transitions: `taskEndOk`
(the closure returned `Ok(result)`: store the result, remove the controller,
leave the status untouched) and `taskEndErr` (the closure returned `Err`:
set status `Error`, remove the controller). `task_set_scanning` models the
status write the running task itself performs through
`ScanContext::update_progress`. -/

inductive ScanStatus : Type where
  | Idle
  | Scanning
  | Paused
  | Completed
  | Error
deriving DecidableEq, Repr

structure ScanController where
  pause : Bool
  cancel : Bool
deriving DecidableEq, Repr

structure ManagerState (R : Type) where
  controllers : List (String × ScanController)
  progressStatus : List (String × ScanStatus)
  results : List (String × R)
deriving DecidableEq, Repr

/-- `ScanManager::new`. -/
def ManagerState.new (R : Type) : ManagerState R := ⟨[], [], []⟩

/-- `start_scan_with_id` (up to the spawn): insert the initial progress,
insert a fresh controller with both flags down. -/
def ManagerState.start_scan_with_id {R : Type} (s : ManagerState R) (scan_id : String)
    (initialStatus : ScanStatus) : ManagerState R :=
  { s with progressStatus := insertAssoc s.progressStatus scan_id initialStatus,
           controllers := insertAssoc s.controllers scan_id ⟨false, false⟩ }

/-- `pause_scan`: raise the pause flag if the controller still exists, and
set the progress status to `Paused` if the progress entry exists. -/
def ManagerState.pause_scan {R : Type} (s : ManagerState R) (scan_id : String) :
    ManagerState R :=
  { s with controllers := setAssoc s.controllers scan_id (fun c => { c with pause := true }),
           progressStatus := setAssoc s.progressStatus scan_id (fun _ => .Paused) }

/-- `resume_scan`: lower the pause flag if the controller still exists, and
set the progress status to `Scanning` if the progress entry exists. -/
def ManagerState.resume_scan {R : Type} (s : ManagerState R) (scan_id : String) :
    ManagerState R :=
  { s with controllers := setAssoc s.controllers scan_id (fun c => { c with pause := false }),
           progressStatus := setAssoc s.progressStatus scan_id (fun _ => .Scanning) }

/-- `cancel_scan`: raise the cancel flag if the controller still exists, and
set the progress status to `Idle` if the progress entry exists. -/
def ManagerState.cancel_scan {R : Type} (s : ManagerState R) (scan_id : String) :
    ManagerState R :=
  { s with controllers := setAssoc s.controllers scan_id (fun c => { c with cancel := true }),
           progressStatus := setAssoc s.progressStatus scan_id (fun _ => .Idle) }

/-- The spawned task returned `Ok(result)` (this is also the clean early
return a cancelled scan takes): the result is stored and the controller
removed; the manager does not touch the status on this path. -/
def ManagerState.taskEndOk {R : Type} (s : ManagerState R) (scan_id : String) (result : R) :
    ManagerState R :=
  { s with results := insertAssoc s.results scan_id result,
           controllers := removeAssoc s.controllers scan_id }

/-- The spawned task returned `Err`: status `Error`, controller removed. -/
def ManagerState.taskEndErr {R : Type} (s : ManagerState R) (scan_id : String) :
    ManagerState R :=
  { s with progressStatus := setAssoc s.progressStatus scan_id (fun _ => .Error),
           controllers := removeAssoc s.controllers scan_id }

/-- The running task reporting progress through `ScanContext::update_progress`
sets the stored status to `Scanning`. -/
def ManagerState.task_set_scanning {R : Type} (s : ManagerState R) (scan_id : String) :
    ManagerState R :=
  { s with progressStatus := setAssoc s.progressStatus scan_id (fun _ => .Scanning) }

/-- `get_progress`, restricted to the status field. -/
def ManagerState.statusOf {R : Type} (s : ManagerState R) (scan_id : String) :
    Option ScanStatus :=
  alookup s.progressStatus scan_id

/-- `get_result`. -/
def ManagerState.resultOf {R : Type} (s : ManagerState R) (scan_id : String) : Option R :=
  alookup s.results scan_id

/-- `clear_scan`: remove the progress and result entries (the controller map
is untouched by `clear_scan` in the source). -/
def ManagerState.clear_scan {R : Type} (s : ManagerState R) (scan_id : String) :
    ManagerState R :=
  { s with progressStatus := removeAssoc s.progressStatus scan_id,
           results := removeAssoc s.results scan_id }

/-! ## Apparatus for the per-file error-isolation analysis

The reference runs that C8 compares against: the same filesystem with the
erroring walk entries removed. `pureHashResult` is the cache-independent
value `calculate_file_hash` produces when the cache is coherent with the
filesystem, and `bucketPushes` is the per-size-bucket sequence of
`(full hash, (path, size))` insertions the hashing phase performs. -/

/-- Drop every traversal-error entry from the walk streams. -/
def ModelFS.dropErrs (fs : ModelFS) : ModelFS :=
  { fs with walks := fs.walks.map (fun w => (w.1, w.2.filter (fun e => e ≠ .err))) }

/-- Drop every walk entry for the path `b` (the reference run in which the
erroring entry simply does not occur). -/
def ModelFS.dropPath (fs : ModelFS) (b : String) : ModelFS :=
  { fs with walks := fs.walks.map (fun w => (w.1, w.2.filter (fun e => e ≠ .ok b))) }

/-- `pushEntry` in paired form (the step of building a hash-keyed map). -/
def pushMap {κ ν : Type} [DecidableEq κ] (m : List (κ × List ν)) (kv : κ × ν) :
    List (κ × List ν) :=
  pushEntry m kv.1 kv.2

/-- The size-bucketing key of `group_by_size`: the file's size when metadata
is readable and the size passes `min_size`, else nothing. -/
def sizeKey (det : DuplicateDetector) (fs : ModelFS) (path : String) : Option Nat :=
  match fs.lookupFile path with
  | some metadata => if metadata.size ≥ det.options.min_size then some metadata.size else none
  | none => none

/-- The value `calculate_file_hash` returns regardless of cache state, as
long as the cache is coherent with the filesystem. -/
def pureHashResult (σ : List Nat → String) (fs : ModelFS) (path : String) :
    Except DiskTidyError HashResult :=
  match fs.lookupFile path with
  | none => .error .IoError
  | some f =>
    if f.readable then .ok ⟨σ f.content, false, f.content.length⟩ else .error .IoError

/-- The map insertion a successful full hash of `path` contributes. -/
def pureEntry (σ : List Nat → String) (fs : ModelFS) (size : Nat) (path : String) :
    Option (String × (String × Nat)) :=
  match pureHashResult σ fs path with
  | .ok hr => some (hr.hash, (path, size))
  | .error _ => none

/-- The sequence of hash-map insertions the hashing phase performs for one
size bucket. -/
def bucketPushes (σ : List Nat → String) (fs : ModelFS) (bucket : Nat × List String) :
    List (String × (String × Nat)) :=
  let partial_hashes := DuplicateDetector.calculate_partial_hashes σ fs bucket.2
  let partial_groups := partial_hashes.foldl (fun m ph => pushEntry m ph.2 ph.1) []
  (partial_groups.filter (fun pg => pg.2.length > 1)).flatMap
    (fun pg => pg.2.filterMap (pureEntry σ fs bucket.1))

/-- Every cache entry whose (mtime, size) matches the file's current metadata
holds that file's current digest — the invariant the mtime/size validation
preserves; the empty cache of a fresh detector satisfies it vacuously. -/
def CacheCoherent (σ : List Nat → String) (fs : ModelFS) (hc : HashCalculator) : Prop :=
  ∀ ce ∈ hc.cache, ∀ f, fs.lookupFile ce.1 = some f →
    ce.2.modified_time = f.mtime → ce.2.file_size = FSFile.size f →
    ce.2.hash = σ f.content

/-- Collision-freedom of the digest on the files actually present (the
SHA-256 modelling assumption). -/
def ContentInjective (σ : List Nat → String) (fs : ModelFS) : Prop :=
  ∀ e1 ∈ fs.files, ∀ e2 ∈ fs.files,
    σ (FSFile.content e1.2) = σ (FSFile.content e2.2) →
      FSFile.content e1.2 = FSFile.content e2.2

/-- Keys of an association list are pairwise distinct. -/
def keysNodup {κ ν : Type} (m : List (κ × ν)) : Prop :=
  (m.map Prod.fst).Nodup

/-- The size bucket of `s` before the singleton filter: the files of the scan
list whose `sizeKey` is `s`, in scan order. -/
def bucketOf (det : DuplicateDetector) (fs : ModelFS) (files : List String) (s : Nat) :
    List String :=
  (((files.filterMap (fun p => (sizeKey det fs p).map (fun k => (k, p)))).filter
    (fun x => decide (x.1 = s))).map Prod.snd)

/-! ## Concrete instances (used by witnesses and counterexamples) -/

/-- A concrete stand-in digest for witnesses (any `σ` works in the theorems);
character-list based so the kernel can evaluate it. -/
def σ0 : List Nat → String := fun l => String.mk (l.map (fun n => Char.ofNat (48 + n % 10)))

/-- Two byte-identical files under one root; the first in traversal order has
the later mtime. -/
def fs0 : ModelFS :=
  { files := [("r/a", ⟨[1, 2, 3], 10, true⟩), ("r/b", ⟨[1, 2, 3], 5, true⟩)],
    walks := [("r", [.ok "r/a", .ok "r/b"])] }

def det0 : DuplicateDetector :=
  DuplicateDetector.with_options ⟨1, none, false, true⟩ []

/-- The one duplicate group `find_duplicates σ0 det0 fs0 ["r"]` returns. -/
def g0 : DuplicateGroup :=
  { hash := "123", size := 3,
    files := [⟨"r/b", "b", 5, true⟩, ⟨"r/a", "a", 10, true⟩],
    wasted_space := 3, file_type := "其他" }

/-- A two-member group whose non-original copy lives under a `desktop` path
(score −20, while the original scores −100). -/
def g9 : DuplicateGroup :=
  { hash := "h", size := 3,
    files := [⟨"c:\\data\\a.txt", "a.txt", 1, true⟩,
              ⟨"c:\\users\\u\\desktop\\a.txt", "a.txt", 2, false⟩],
    wasted_space := 3, file_type := "" }

/-- Three files under one root for the error-isolation witness: "r/a" and
"r/b" are byte-identical and readable, "r/c" is unreadable. -/
def fs8 : ModelFS :=
  { files := [("r/a", ⟨[1, 2, 3], 10, true⟩), ("r/b", ⟨[1, 2, 3], 5, true⟩),
              ("r/c", ⟨[7], 3, false⟩)],
    walks := [("r", [.ok "r/a", .ok "r/b", .ok "r/c"])] }

/-- A filesystem exhibiting all three per-file error sites at once: a
directory-walk error, a path "r/m" listed by the walker but whose metadata is
unreadable (absent from `files`), and a file "r/c" whose metadata is fine but
whose content cannot be read. "r/a" and "r/b" are ordinary duplicates. -/
def fs8e : ModelFS :=
  { files := [("r/a", ⟨[1, 2, 3], 10, true⟩), ("r/b", ⟨[1, 2, 3], 5, true⟩),
              ("r/c", ⟨[7, 8, 9], 3, false⟩)],
    walks := [("r", [.ok "r/a", .err, .ok "r/m", .ok "r/b", .ok "r/c"])] }

/-- The error-free counterpart of `fs8e`: only the two healthy duplicates. -/
def fs8c : ModelFS :=
  { files := [("r/a", ⟨[1, 2, 3], 10, true⟩), ("r/b", ⟨[1, 2, 3], 5, true⟩)],
    walks := [("r", [.ok "r/a", .ok "r/b"])] }

/-- A filesystem for the hash-cache witnesses: one readable file at "p". -/
def fs3 : ModelFS :=
  { files := [("p", ⟨[9, 9, 9], 10, true⟩)], walks := [] }

/-- A calculator whose cache entry for "p" matches the file's current
(mtime, size). -/
def hc3 : HashCalculator := ⟨[("p", ⟨"HH", 10, 3⟩)], 1000, true, 30⟩

/-- A calculator whose cache entry for "p" has a stale mtime. -/
def hc4 : HashCalculator := ⟨[("p", ⟨"HH", 11, 3⟩)], 1000, true, 30⟩

/-- Two readable files of different sizes (for the quick-compare witness). -/
def fs6 : ModelFS :=
  { files := [("a", ⟨[1], 1, true⟩), ("b", ⟨[1, 2], 1, true⟩)], walks := [] }

/-- A manager state whose scan "s" has terminated: the controller is gone,
the progress entry holds the terminal status `Completed`, the result is
stored. -/
def sTerm : ManagerState Nat := ⟨[], [("s", .Completed)], [("s", 42)]⟩

/-- Trace: a scan "s" is started ... -/
def s4a : ManagerState Nat := ManagerState.start_scan_with_id (ManagerState.new Nat) "s" .Idle

/-- ... its task reports progress (status `Scanning`) ... -/
def s4b : ManagerState Nat := ManagerState.task_set_scanning s4a "s"

/-- ... `cancel_scan` is called ... -/
def s4c : ManagerState Nat := ManagerState.cancel_scan s4b "s"

/-- ... and the task observes the cancel flag at its next checkpoint and
returns cleanly with an (empty) result. -/
def s4d : ManagerState Nat := ManagerState.taskEndOk s4c "s" 0

/-! ## Helper lemmas -/

theorem alookup_lruPut (cap : Nat) (c : List (String × CachedHash)) (k : String)
    (v : CachedHash) (hcap : 1 ≤ cap) : alookup (lruPut cap c k v) k = some v := by
  match cap, hcap with
  | cap + 1, _ =>
    simp [lruPut, List.take_succ_cons, alookup]

theorem markFirstOriginal_length (l : List DuplicateFile) :
    (markFirstOriginal l).length = l.length := by
  cases l <;> simp [markFirstOriginal]

theorem alookup_setAssoc {κ ν : Type} [DecidableEq κ] (m : List (κ × ν)) (key : κ) (f : ν → ν) :
    alookup (setAssoc m key f) key = (alookup m key).map f := by
  induction m with
  | nil => rfl
  | cons p r ih =>
    by_cases h : p.1 = key
    · simp [setAssoc, alookup, h]
    · simpa [setAssoc, alookup, h] using ih

theorem alookup_setAssoc_ne {κ ν : Type} [DecidableEq κ] (m : List (κ × ν)) (k k' : κ)
    (f : ν → ν) (hne : k ≠ k') : alookup (setAssoc m k f) k' = alookup m k' := by
  induction m with
  | nil => rfl
  | cons p r ih =>
    by_cases h : p.1 = k
    · have h2 : p.1 ≠ k' := by rw [h]; exact hne
      simp [setAssoc, alookup, h, h2, hne]
    · by_cases h2 : p.1 = k'
      · simp [setAssoc, alookup, h, h2, Ne.symm hne]
      · simpa [setAssoc, alookup, h, h2] using ih

theorem setAssoc_of_not_mem {κ ν : Type} [DecidableEq κ] (m : List (κ × ν)) (key : κ)
    (f : ν → ν) (h : alookup m key = none) : setAssoc m key f = m := by
  induction m with
  | nil => rfl
  | cons p r ih =>
    by_cases hp : p.1 = key
    · simp [alookup, hp] at h
    · simp [alookup, hp] at h
      simp [setAssoc, hp, ih h]

theorem setAssoc_setAssoc {κ ν : Type} [DecidableEq κ] (m : List (κ × ν)) (key : κ)
    (f : ν → ν) (hf : ∀ v, f (f v) = f v) :
    setAssoc (setAssoc m key f) key f = setAssoc m key f := by
  induction m with
  | nil => rfl
  | cons p r ih =>
    by_cases h : p.1 = key
    · simp [setAssoc, h, hf]
    · simp [setAssoc, h, ih]

theorem alookup_insertAssoc {κ ν : Type} [DecidableEq κ] (m : List (κ × ν)) (key : κ) (v : ν) :
    alookup (insertAssoc m key v) key = some v := by
  induction m with
  | nil => simp [insertAssoc, alookup]
  | cons p r ih =>
    by_cases h : p.1 = key
    · simp [insertAssoc, alookup, h]
    · simpa [insertAssoc, alookup, h] using ih

theorem alookup_removeAssoc {κ ν : Type} [DecidableEq κ] (m : List (κ × ν)) (key : κ) :
    alookup (removeAssoc m key) key = none := by
  induction m with
  | nil => rfl
  | cons p r ih =>
    by_cases h : p.1 = key
    · simpa [removeAssoc, h] using ih
    · simpa [removeAssoc, alookup, h] using ih

theorem insertStable_perm {α : Type} (le : α → α → Bool) (x : α) (l : List α) :
    List.Perm (insertStable le x l) (x :: l) := by
  induction l with
  | nil => exact List.Perm.refl _
  | cons y ys ih =>
    by_cases h : le y x = true
    · simpa [insertStable, h] using ((ih.cons y).trans (List.Perm.swap x y ys))
    · simp only [insertStable, h, if_false]
      exact List.Perm.refl _

theorem stableSortBy_foldl_perm {α : Type} (le : α → α → Bool) (l acc : List α) :
    List.Perm (l.foldl (fun acc x => insertStable le x acc) acc) (acc ++ l) := by
  induction l generalizing acc with
  | nil => simp
  | cons x xs ih =>
    simp only [List.foldl_cons]
    have h1 := ih (insertStable le x acc)
    have h2 : List.Perm (insertStable le x acc ++ xs) ((x :: acc) ++ xs) :=
      (insertStable_perm le x acc).append_right xs
    have h3 : List.Perm ((x :: acc) ++ xs) (acc ++ x :: xs) := by
      simpa using (@List.perm_middle _ x acc xs).symm
    exact (h1.trans h2).trans h3

theorem stableSortBy_perm {α : Type} (le : α → α → Bool) (l : List α) :
    List.Perm (stableSortBy le l) l := by
  simpa [stableSortBy] using stableSortBy_foldl_perm le l []

theorem mem_stableSortBy {α : Type} (le : α → α → Bool) (l : List α) (x : α) :
    x ∈ stableSortBy le l ↔ x ∈ l :=
  (stableSortBy_perm le l).mem_iff

theorem length_stableSortBy {α : Type} (le : α → α → Bool) (l : List α) :
    (stableSortBy le l).length = l.length :=
  (stableSortBy_perm le l).length_eq

theorem alookup_mem {κ ν : Type} [DecidableEq κ] {m : List (κ × ν)} {k : κ} {v : ν}
    (h : alookup m k = some v) : (k, v) ∈ m := by
  induction m with
  | nil => exact Option.noConfusion h
  | cons p r ih =>
    by_cases hp : p.1 = k
    · rw [alookup, if_pos hp] at h
      have : p = (k, v) := by
        obtain ⟨a, x⟩ := p
        simp only at hp
        simp only [Option.some.injEq] at h
        simp [hp, h]
      exact this ▸ List.mem_cons_self p r
    · rw [alookup, if_neg hp] at h
      exact List.mem_cons_of_mem p (ih h)

theorem alookup_removeAssoc_ne {κ ν : Type} [DecidableEq κ] (m : List (κ × ν)) (k q : κ)
    (hne : q ≠ k) : alookup (removeAssoc m k) q = alookup m q := by
  induction m with
  | nil => rfl
  | cons p r ih =>
    by_cases hp : p.1 = k
    · have hkq : k ≠ q := fun e => hne e.symm
      simpa [removeAssoc, alookup, hp, hkq] using ih
    · by_cases hq : p.1 = q
      · simp [removeAssoc, alookup, hp, hq, hne]
      · simpa [removeAssoc, alookup, hp, hq] using ih

theorem alookup_eq_none_of_not_mem_keys {κ ν : Type} [DecidableEq κ] {m : List (κ × ν)}
    {k : κ} (h : k ∉ m.map Prod.fst) : alookup m k = none := by
  induction m with
  | nil => rfl
  | cons p r ih =>
    simp only [List.map_cons, List.mem_cons, not_or] at h
    rw [alookup, if_neg (fun e => h.1 e.symm)]
    exact ih h.2

theorem removeAssoc_of_alookup_none {κ ν : Type} [DecidableEq κ] {m : List (κ × ν)} {k : κ}
    (h : alookup m k = none) : removeAssoc m k = m := by
  induction m with
  | nil => rfl
  | cons p r ih =>
    by_cases hp : p.1 = k
    · simp [alookup, hp] at h
    · simp only [alookup, hp, if_false, if_neg hp] at h ⊢
      simp [removeAssoc, hp, ih h]

theorem mem_keys_removeAssoc {κ ν : Type} [DecidableEq κ] {m : List (κ × ν)} {k q : κ}
    (h : q ∈ (removeAssoc m k).map Prod.fst) : q ∈ m.map Prod.fst := by
  induction m with
  | nil => exact h
  | cons p r ih =>
    by_cases hp : p.1 = k
    · simp only [removeAssoc, if_pos hp] at h
      exact List.mem_cons_of_mem _ (ih h)
    · simp only [removeAssoc, if_neg hp, List.map_cons, List.mem_cons] at h ⊢
      exact h.imp id ih

theorem keysNodup_removeAssoc {κ ν : Type} [DecidableEq κ] {m : List (κ × ν)} {k : κ}
    (h : keysNodup m) : keysNodup (removeAssoc m k) := by
  induction m with
  | nil => exact h
  | cons p r ih =>
    simp only [keysNodup, List.map_cons, List.nodup_cons] at h
    by_cases hp : p.1 = k
    · simp only [removeAssoc, if_pos hp]
      exact ih h.2
    · simp only [removeAssoc, if_neg hp, keysNodup, List.map_cons, List.nodup_cons]
      exact ⟨fun hmem => h.1 (mem_keys_removeAssoc hmem), ih h.2⟩

theorem perm_extract {κ ν : Type} [DecidableEq κ] {m : List (κ × ν)} {k : κ} {v : ν}
    (hnd : keysNodup m) (h : alookup m k = some v) :
    List.Perm m ((k, v) :: removeAssoc m k) := by
  induction m with
  | nil => exact Option.noConfusion h
  | cons p r ih =>
    obtain ⟨a, x⟩ := p
    simp only [keysNodup, List.map_cons, List.nodup_cons] at hnd
    by_cases hp : a = k
    · subst hp
      rw [alookup, if_pos rfl] at h
      have hxv := Option.some.inj h
      subst hxv
      have hnone : alookup r a = none :=
        alookup_eq_none_of_not_mem_keys hnd.1
      simp only [removeAssoc, if_pos rfl, removeAssoc_of_alookup_none hnone]
      exact List.Perm.refl _
    · simp only [alookup, hp, if_false, if_neg hp] at h
      simp only [removeAssoc, if_neg hp]
      exact (List.Perm.cons (a, x) (ih hnd.2 h)).trans (List.Perm.swap (k, v) (a, x) _)

theorem perm_of_alookup_eq {κ ν : Type} [DecidableEq κ] {m1 m2 : List (κ × ν)}
    (h1 : keysNodup m1) (h2 : keysNodup m2) (h : ∀ k, alookup m1 k = alookup m2 k) :
    List.Perm m1 m2 := by
  induction m1 generalizing m2 with
  | nil =>
    cases m2 with
    | nil => exact List.Perm.refl _
    | cons q r2 =>
      have hq := h q.1
      simp [alookup] at hq
  | cons p r ih =>
    obtain ⟨a, x⟩ := p
    simp only [keysNodup, List.map_cons, List.nodup_cons] at h1
    have hk : alookup m2 a = some x := by
      have := h a
      simpa [alookup] using this.symm
    have hperm2 := perm_extract h2 hk
    have hlk : ∀ k, alookup r k = alookup (removeAssoc m2 a) k := by
      intro k
      by_cases hka : k = a
      · subst hka
        rw [alookup_eq_none_of_not_mem_keys h1.1, alookup_removeAssoc]
      · have hh := h k
        rw [alookup, if_neg (fun e => hka e.symm)] at hh
        rw [hh, alookup_removeAssoc_ne _ _ _ hka]
    exact ((ih h1.2 (keysNodup_removeAssoc h2) hlk).cons (a, x)).trans hperm2.symm

theorem alookup_pushEntry {κ ν : Type} [DecidableEq κ] (m : List (κ × List ν)) (k : κ)
    (v : ν) (k' : κ) :
    alookup (pushEntry m k v) k'
      = if k' = k then some ((alookup m k).getD [] ++ [v]) else alookup m k' := by
  induction m with
  | nil =>
    by_cases h : k' = k
    · simp [pushEntry, alookup, h]
    · simp [pushEntry, alookup, h, Ne.symm h]
  | cons p r ih =>
    by_cases hp : p.1 = k
    · by_cases h : k' = k
      · subst h
        simp [pushEntry, alookup, hp]
      · have hne : p.1 ≠ k' := by rw [hp]; exact fun e => h e.symm
        have hne2 : k ≠ k' := fun e => h e.symm
        simp [pushEntry, alookup, hp, h, hne, hne2]
    · by_cases h : p.1 = k'
      · have hne : ¬ k' = k := fun e => hp (h.trans e)
        simp [pushEntry, alookup, hp, h, hne]
      · simp [pushEntry, alookup, hp, h, ih]

theorem mem_keys_pushEntry {κ ν : Type} [DecidableEq κ] {m : List (κ × List ν)} {k : κ}
    {v : ν} {q : κ} :
    q ∈ (pushEntry m k v).map Prod.fst ↔ q ∈ m.map Prod.fst ∨ q = k := by
  induction m with
  | nil => simp [pushEntry]
  | cons p r ih =>
    obtain ⟨a, lv⟩ := p
    by_cases hp : a = k
    · subst hp
      simp [pushEntry, List.map_cons, List.mem_cons]
      tauto
    · simp [pushEntry, hp, List.map_cons, List.mem_cons, ih]
      tauto

theorem keysNodup_pushEntry {κ ν : Type} [DecidableEq κ] {m : List (κ × List ν)} {k : κ}
    {v : ν} (h : keysNodup m) : keysNodup (pushEntry m k v) := by
  induction m with
  | nil => simp [pushEntry, keysNodup]
  | cons p r ih =>
    simp only [keysNodup, List.map_cons, List.nodup_cons] at h
    by_cases hp : p.1 = k
    · simp only [pushEntry, if_pos hp, keysNodup, List.map_cons, List.nodup_cons]
      exact h
    · simp only [pushEntry, if_neg hp, keysNodup, List.map_cons, List.nodup_cons]
      refine ⟨fun hmem => ?_, ih h.2⟩
      rcases mem_keys_pushEntry.mp hmem with hm | he
      · exact h.1 hm
      · exact hp he

theorem alookup_map_snd {κ ν ν' : Type} [DecidableEq κ] (m : List (κ × ν)) (g : ν → ν')
    (k : κ) : alookup (m.map (fun e => (e.1, g e.2))) k = (alookup m k).map g := by
  induction m with
  | nil => rfl
  | cons p r ih =>
    by_cases hp : p.1 = k
    · simp [alookup, hp]
    · simpa [alookup, hp] using ih

theorem alookup_take_some {κ ν : Type} [DecidableEq κ] {l : List (κ × ν)} {n : Nat} {k : κ}
    {v : ν} (h : alookup (l.take n) k = some v) : alookup l k = some v := by
  induction l generalizing n with
  | nil => simpa using h
  | cons p r ih =>
    cases n with
    | zero => exact Option.noConfusion h
    | succ n =>
      rw [List.take_succ_cons] at h
      by_cases hp : p.1 = k
      · rwa [alookup, if_pos hp] at h ⊢
      · rw [alookup, if_neg hp] at h ⊢
        exact ih h

theorem alookup_filter {κ ν : Type} [DecidableEq κ] {m : List (κ × ν)} (P : κ × ν → Bool)
    (hnd : keysNodup m) (k : κ) :
    alookup (m.filter P) k
      = match alookup m k with
        | some v => if P (k, v) then some v else none
        | none => none := by
  induction m with
  | nil => rfl
  | cons p r ih =>
    obtain ⟨a, x⟩ := p
    simp only [keysNodup, List.map_cons, List.nodup_cons] at hnd
    by_cases hp : a = k
    · subst hp
      have hnone : alookup r a = none := alookup_eq_none_of_not_mem_keys hnd.1
      by_cases hP : P (a, x)
      · simp [List.filter_cons, hP, alookup]
      · have hfil : alookup (r.filter P) a = none := by
          rw [ih hnd.2, hnone]
        simp [List.filter_cons, hP, alookup, hfil]
    · by_cases hP : P (a, x)
      · simpa [List.filter_cons, hP, alookup, hp] using ih hnd.2
      · simpa [List.filter_cons, hP, alookup, hp] using ih hnd.2

theorem foldl_pushMap_alookup {κ ν : Type} [DecidableEq κ] (PL : List (κ × ν))
    (acc : List (κ × List ν)) (h : κ) :
    alookup (PL.foldl pushMap acc) h
      = match alookup acc h, (PL.filter (fun kv => decide (kv.1 = h))).map Prod.snd with
        | some l, s => some (l ++ s)
        | none, [] => none
        | none, a :: s => some (a :: s) := by
  induction PL generalizing acc with
  | nil =>
    cases hacc : alookup acc h <;> simp [hacc]
  | cons kv rest ih =>
    obtain ⟨k1, v1⟩ := kv
    rw [List.foldl_cons, ih]
    by_cases hk : k1 = h
    · subst hk
      cases hacc : alookup acc k1 with
      | some l =>
        simp [pushMap, alookup_pushEntry, hacc, List.filter_cons, List.append_assoc]
      | none =>
        simp [pushMap, alookup_pushEntry, hacc, List.filter_cons]
    · have hk2 : ¬ h = k1 := fun e => hk e.symm
      cases hacc : alookup acc h with
      | some l => simp [pushMap, alookup_pushEntry, hacc, hk, hk2, List.filter_cons]
      | none => simp [pushMap, alookup_pushEntry, hacc, hk, hk2, List.filter_cons]

theorem keysNodup_foldl_pushMap {κ ν : Type} [DecidableEq κ] (PL : List (κ × ν))
    (acc : List (κ × List ν)) (h : keysNodup acc) : keysNodup (PL.foldl pushMap acc) := by
  induction PL generalizing acc with
  | nil => exact h
  | cons kv rest ih => exact ih _ (keysNodup_pushEntry h)

theorem perm_flatMap {α β : Type} (f : α → List β) {l1 l2 : List α} (h : List.Perm l1 l2) :
    List.Perm (l1.flatMap f) (l2.flatMap f) := by
  induction h with
  | nil => exact List.Perm.refl _
  | cons x _ ih =>
    simp only [List.flatMap_cons]
    exact ih.append_left (f x)
  | swap x y l =>
    simp only [List.flatMap_cons]
    rw [← List.append_assoc, ← List.append_assoc]
    exact (List.perm_append_comm).append_right _
  | trans _ _ ih1 ih2 => exact ih1.trans ih2

theorem filter_flatMap {α β : Type} (P : β → Bool) (f : α → List β) (l : List α) :
    (l.flatMap f).filter P = l.flatMap (fun a => (f a).filter P) := by
  induction l with
  | nil => rfl
  | cons x xs ih => simp [List.flatMap_cons, List.filter_append, ih]

theorem flatMap_eq_nil_of {α β : Type} {f : α → List β} {l : List α}
    (h : ∀ a ∈ l, f a = []) : l.flatMap f = [] := by
  induction l with
  | nil => rfl
  | cons x xs ih =>
    simp [List.flatMap_cons, h x (List.mem_cons_self x xs),
      ih (fun a ha => h a (List.mem_cons_of_mem x ha))]

/-- A `flatMap` over an association list with distinct keys, whose function
is empty except possibly at key `s₀`, collapses to the contribution of the
`s₀` entry. -/
theorem flatMap_single_key {κ μ β : Type} [DecidableEq κ] {B : List (κ × μ)}
    {f : κ × μ → List β} {s₀ : κ} (hnd : keysNodup B)
    (h : ∀ e ∈ B, e.1 ≠ s₀ → f e = []) :
    B.flatMap f = match alookup B s₀ with
      | some l => f (s₀, l)
      | none => [] := by
  induction B with
  | nil => rfl
  | cons e rest ih =>
    obtain ⟨k, l⟩ := e
    simp only [keysNodup, List.map_cons, List.nodup_cons] at hnd
    by_cases hk : k = s₀
    · subst hk
      have hrest : rest.flatMap f = [] := by
        refine flatMap_eq_nil_of (fun a ha => h a (List.mem_cons_of_mem _ ha) (fun he => ?_))
        exact hnd.1 (he ▸ List.mem_map_of_mem Prod.fst ha)
      simp [List.flatMap_cons, hrest, alookup]
    · have hhead : f (k, l) = [] := h (k, l) (List.mem_cons_self _ _) hk
      simp only [List.flatMap_cons, hhead, List.nil_append, alookup, if_neg hk]
      exact ih hnd.2 (fun a ha hne => h a (List.mem_cons_of_mem _ ha) hne)

theorem filterMap_filter_ne {α β : Type} [DecidableEq α] {f : α → Option β} {b : α}
    (hb : f b = none) (l : List α) :
    (l.filter (fun x => decide (x ≠ b))).filterMap f = l.filterMap f := by
  simp only [decide_not]
  induction l with
  | nil => rfl
  | cons x xs ih =>
    by_cases hx : x = b
    · subst hx
      simp [List.filter_cons, hb, ih]
    · simp [List.filter_cons, hx, List.filterMap_cons, ih]

theorem filterMap_okPath_filter_err (entries : List WalkEntry) :
    ((entries.filter (fun e => decide (e ≠ WalkEntry.err))).filterMap WalkEntry.okPath)
      = entries.filterMap WalkEntry.okPath := by
  simp only [decide_not]
  induction entries with
  | nil => rfl
  | cons e rest ih =>
    cases e with
    | ok p => simp [List.filter_cons, List.filterMap_cons, WalkEntry.okPath, ih]
    | err => simp [List.filter_cons, List.filterMap_cons, WalkEntry.okPath, ih]

theorem filterMap_okPath_filter_okb (entries : List WalkEntry) (b : String) :
    ((entries.filter (fun e => decide (e ≠ WalkEntry.ok b))).filterMap WalkEntry.okPath)
      = (entries.filterMap WalkEntry.okPath).filter (fun p => decide (p ≠ b)) := by
  simp only [decide_not]
  induction entries with
  | nil => rfl
  | cons e rest ih =>
    cases e with
    | ok p =>
      by_cases hp : p = b
      · subst hp
        simp [List.filter_cons, List.filterMap_cons, WalkEntry.okPath, ih]
      · have : WalkEntry.ok p ≠ WalkEntry.ok b := fun h => hp (WalkEntry.ok.inj h)
        simp [List.filter_cons, List.filterMap_cons, WalkEntry.okPath, ih, hp, this]
    | err => simp [List.filter_cons, List.filterMap_cons, WalkEntry.okPath, ih]

theorem scan_files_dropErrs (det : DuplicateDetector) (fs : ModelFS) (paths : List String) :
    DuplicateDetector.scan_files det fs.dropErrs paths
      = DuplicateDetector.scan_files det fs paths := by
  simp only [DuplicateDetector.scan_files, ModelFS.dropErrs]
  congr 1
  apply List.map_congr_left
  intro root _
  rw [alookup_map_snd fs.walks (fun es => es.filter (fun e => decide (e ≠ WalkEntry.err))) root]
  cases hw : alookup fs.walks root with
  | none => rfl
  | some entries =>
    dsimp only [Option.map]
    rw [filterMap_okPath_filter_err]
    rfl

theorem scan_files_dropPath (det : DuplicateDetector) (fs : ModelFS) (paths : List String)
    (b : String) :
    DuplicateDetector.scan_files det (fs.dropPath b) paths
      = (DuplicateDetector.scan_files det fs paths).filter (fun p => decide (p ≠ b)) := by
  simp only [DuplicateDetector.scan_files, ModelFS.dropPath, List.filter_flatten,
    List.map_map]
  congr 1
  apply List.map_congr_left
  intro root _
  simp only [Function.comp]
  rw [alookup_map_snd fs.walks (fun es => es.filter (fun e => decide (e ≠ WalkEntry.ok b)))
    root]
  cases hw : alookup fs.walks root with
  | none => rfl
  | some entries =>
    dsimp only [Option.map]
    rw [filterMap_okPath_filter_okb, List.filter_comm]
    rfl

/-- The whole pipeline reads the filesystem only through `files` after the
scan phase, so runs over filesystems that differ only in their walk streams
and produce the same scan list produce the same analysis result. -/
theorem find_duplicates_walks_congr (σ : List Nat → String) (det : DuplicateDetector)
    (fs : ModelFS) (W : List (String × List WalkEntry)) (paths : List String)
    (h : DuplicateDetector.scan_files det ⟨fs.files, W⟩ paths
          = DuplicateDetector.scan_files det fs paths) :
    DuplicateDetector.find_duplicates σ det ⟨fs.files, W⟩ paths
      = DuplicateDetector.find_duplicates σ det fs paths := by
  simp only [DuplicateDetector.find_duplicates, DuplicateDetector.find_duplicates_internal, h]
  rfl

/-- `group_by_size` is the keyed-push fold over the `sizeKey`-annotated file
list, with singleton buckets discarded. -/
theorem group_by_size_eq_keyed (det : DuplicateDetector) (fs : ModelFS)
    (files : List String) :
    DuplicateDetector.group_by_size det fs files
      = ((files.filterMap (fun p => (sizeKey det fs p).map (fun k => (k, p)))).foldl
          pushMap []).filter (fun e => e.2.length > 1) := by
  simp only [DuplicateDetector.group_by_size]
  congr 1
  suffices h : ∀ acc, List.foldl (fun groups path =>
      match fs.lookupFile path with
      | some metadata =>
        if metadata.size ≥ det.options.min_size then pushEntry groups metadata.size path
        else groups
      | none => groups) acc files
      = List.foldl pushMap acc
          (files.filterMap (fun p => (sizeKey det fs p).map (fun k => (k, p)))) from h []
  intro acc
  induction files generalizing acc with
  | nil => rfl
  | cons p ps ih =>
    cases hp : fs.lookupFile p with
    | none => simp [hp, sizeKey, List.filterMap_cons, ih]
    | some md =>
      by_cases hm : md.size ≥ det.options.min_size
      · simp [hp, hm, sizeKey, List.filterMap_cons, pushMap, ih]
      · simp [hp, hm, sizeKey, List.filterMap_cons, ih]

theorem group_by_size_filter_noMeta (det : DuplicateDetector) (fs : ModelFS) (b : String)
    (hb : fs.lookupFile b = none) (files : List String) :
    DuplicateDetector.group_by_size det fs (files.filter (fun p => decide (p ≠ b)))
      = DuplicateDetector.group_by_size det fs files := by
  have hk : (fun p => (sizeKey det fs p).map (fun k => (k, p))) b = none := by
    simp [sizeKey, hb]
  rw [group_by_size_eq_keyed, group_by_size_eq_keyed,
    @filterMap_filter_ne _ _ _ (fun p => (sizeKey det fs p).map (fun k => (k, p))) b hk files]

theorem group_by_size_dropPath (det : DuplicateDetector) (fs : ModelFS) (b : String)
    (files : List String) :
    DuplicateDetector.group_by_size det (fs.dropPath b) files
      = DuplicateDetector.group_by_size det fs files := rfl

theorem cagbh_dropPath (σ : List Nat → String) (det : DuplicateDetector) (fs : ModelFS)
    (b : String) (sg : List (Nat × List String)) :
    DuplicateDetector.calculate_and_group_by_hash σ det (fs.dropPath b) sg
      = DuplicateDetector.calculate_and_group_by_hash σ det fs sg := rfl

theorem create_groups_dropPath (fs : ModelFS) (b : String)
    (hgs : List (String × List (String × Nat))) :
    DuplicateDetector.create_duplicate_groups (fs.dropPath b) hgs
      = DuplicateDetector.create_duplicate_groups fs hgs := rfl

theorem find_duplicates_dropErrs (σ : List Nat → String) (det : DuplicateDetector)
    (fs : ModelFS) (paths : List String) :
    DuplicateDetector.find_duplicates σ det fs.dropErrs paths
      = DuplicateDetector.find_duplicates σ det fs paths := by
  have h := scan_files_dropErrs det fs paths
  simp only [DuplicateDetector.find_duplicates, DuplicateDetector.find_duplicates_internal, h]
  rfl

theorem find_duplicates_dropPath_noMeta (σ : List Nat → String) (det : DuplicateDetector)
    (fs : ModelFS) (paths : List String) (b : String) (hb : fs.lookupFile b = none) :
    DuplicateDetector.find_duplicates σ det (fs.dropPath b) paths
      = DuplicateDetector.find_duplicates σ det fs paths := by
  have h1 := scan_files_dropPath det fs paths b
  have h2 := group_by_size_filter_noMeta det fs b hb
    (DuplicateDetector.scan_files det fs paths)
  simp only [DuplicateDetector.find_duplicates, DuplicateDetector.find_duplicates_internal,
    h1, group_by_size_dropPath, h2, cagbh_dropPath, create_groups_dropPath]

theorem mem_removeAssoc_sub {κ ν : Type} [DecidableEq κ] {m : List (κ × ν)} {k : κ}
    {ce : κ × ν} (h : ce ∈ removeAssoc m k) : ce ∈ m := by
  induction m with
  | nil => exact h
  | cons p r ih =>
    by_cases hp : p.1 = k
    · rw [removeAssoc, if_pos hp] at h
      exact List.mem_cons_of_mem p (ih h)
    · rw [removeAssoc, if_neg hp] at h
      rcases List.mem_cons.mp h with he | hm
      · exact he ▸ List.mem_cons_self p r
      · exact List.mem_cons_of_mem p (ih hm)

/-- `hashAndCache` returns the digest of the current content and preserves
cache coherence. -/
theorem hashAndCache_coherent (σ : List Nat → String) (fs : ModelFS) (hc : HashCalculator)
    (f : FSFile) (p : String) (hf : fs.lookupFile p = some f)
    (h : CacheCoherent σ fs hc) :
    (HashCalculator.hashAndCache σ hc f p).1 = .ok ⟨σ f.content, false, f.content.length⟩ ∧
    CacheCoherent σ fs (HashCalculator.hashAndCache σ hc f p).2 := by
  refine ⟨rfl, ?_⟩
  intro ce hce f2 hf2 hm hs
  simp only [HashCalculator.hashAndCache] at hce
  by_cases hen : hc.cache_enabled
  · simp only [hen, if_true] at hce
    have hce2 := List.mem_of_mem_take hce
    rcases List.mem_cons.mp hce2 with he | hmem
    · subst he
      simp only at hf2 hm hs ⊢
      rw [hf] at hf2
      have := Option.some.inj hf2
      subst this
      rfl
    · exact h ce (mem_removeAssoc_sub hmem) f2 hf2 hm hs
  · simp only [hen, if_false] at hce
    exact h ce hce f2 hf2 hm hs

/-- With a coherent cache, `calculate_file_hash` returns the pure value and
keeps the cache coherent, whatever the cache contents. -/
theorem calculate_file_hash_coherent (σ : List Nat → String) (fs : ModelFS)
    (hc : HashCalculator) (p : String) (h : CacheCoherent σ fs hc) :
    (HashCalculator.calculate_file_hash σ hc fs p).1 = pureHashResult σ fs p ∧
    CacheCoherent σ fs (HashCalculator.calculate_file_hash σ hc fs p).2 := by
  rw [HashCalculator.calculate_file_hash]
  rw [HashCalculator.calculate_file_hash_internal]
  cases hf : fs.lookupFile p with
  | none => exact ⟨by simp [pureHashResult, hf], h⟩
  | some f =>
    cases hr : f.readable with
    | false =>
      constructor
      · simp [pureHashResult, hf, hr]
      · simp only [hr, Bool.false_eq_true, if_false]
        exact h
    | true =>
      simp only [hr, if_true, pureHashResult, hf]
      have hpromoted : ∀ cached, alookup hc.cache p = some cached →
          CacheCoherent σ fs { hc with cache := (p, cached) :: removeAssoc hc.cache p } := by
        intro cached hcc ce hce f2 hf2 hm hs
        rcases List.mem_cons.mp hce with he | hmem
        · exact h ce (he ▸ alookup_mem hcc) f2 hf2 hm hs
        · exact h ce (mem_removeAssoc_sub hmem) f2 hf2 hm hs
      by_cases hen : hc.cache_enabled
      · simp only [hen, if_true]
        cases hcc : alookup hc.cache p with
        | none =>
          by_cases hbig : FSFile.size f > LARGE_FILE_THRESHOLD
          · simp only [hbig, if_true, HashCalculator.calculate_large_file_hash]
            exact hashAndCache_coherent σ fs hc f p hf h
          · simp only [hbig, if_false]
            exact hashAndCache_coherent σ fs hc f p hf h
        | some cached =>
          by_cases hmatch : cached.modified_time = f.mtime ∧ cached.file_size = FSFile.size f
          · simp only [hmatch, and_self, if_true]
            constructor
            · have hhash : cached.hash = σ f.content :=
                h (p, cached) (alookup_mem hcc) f hf hmatch.1 hmatch.2
              simp [hhash, FSFile.size]
            · exact hpromoted cached hcc
          · simp only [if_neg hmatch]
            by_cases hbig : FSFile.size f > LARGE_FILE_THRESHOLD
            · simp only [hbig, if_true, HashCalculator.calculate_large_file_hash]
              exact hashAndCache_coherent σ fs _ f p hf (hpromoted cached hcc)
            · simp only [hbig, if_false]
              exact hashAndCache_coherent σ fs _ f p hf (hpromoted cached hcc)
      · simp only [hen, if_false]
        by_cases hbig : FSFile.size f > LARGE_FILE_THRESHOLD
        · simp only [hbig, if_true, HashCalculator.calculate_large_file_hash]
          exact hashAndCache_coherent σ fs hc f p hf h
        · simp only [hbig, if_false]
          exact hashAndCache_coherent σ fs hc f p hf h

theorem mem_alookup_of_nodup {κ ν : Type} [DecidableEq κ] {m : List (κ × ν)} {e : κ × ν}
    (hnd : keysNodup m) (h : e ∈ m) : alookup m e.1 = some e.2 := by
  induction m with
  | nil => exact absurd h (List.not_mem_nil e)
  | cons p r ih =>
    simp only [keysNodup, List.map_cons, List.nodup_cons] at hnd
    rcases List.mem_cons.mp h with he | hm
    · subst he
      simp [alookup]
    · have hne : p.1 ≠ e.1 := by
        intro hcontra
        exact hnd.1 (hcontra ▸ List.mem_map_of_mem Prod.fst hm)
      rw [alookup, if_neg hne]
      exact ih hnd.2 hm

theorem foldl_swapPush_eq_pushMap {α κ : Type} [DecidableEq κ]
    (l : List (α × κ)) (acc : List (κ × List α)) :
    l.foldl (fun m ph => pushEntry m ph.2 ph.1) acc
      = (l.map (fun x => (x.2, x.1))).foldl pushMap acc := by
  induction l generalizing acc with
  | nil => rfl
  | cons x xs ih => simp [pushMap, ih]

theorem partialHash_err_of_unreadable (σ : List Nat → String) (fs : ModelFS) (b : String)
    (fb : FSFile) (hb : fs.lookupFile b = some fb) (hr : fb.readable = false) :
    HashCalculator.calculate_partial_hash σ fs b = .error .IoError := by
  simp [HashCalculator.calculate_partial_hash, hb, hr]

theorem cph_filter_ne (σ : List Nat → String) (fs : ModelFS) (b : String)
    (hb : HashCalculator.calculate_partial_hash σ fs b = .error .IoError)
    (l : List String) :
    DuplicateDetector.calculate_partial_hashes σ fs (l.filter (fun p => decide (p ≠ b)))
      = DuplicateDetector.calculate_partial_hashes σ fs l := by
  simp only [DuplicateDetector.calculate_partial_hashes]
  exact @filterMap_filter_ne _ _ _
    (fun path =>
      match HashCalculator.calculate_partial_hash σ fs path with
      | .ok hr => some (path, hr.hash)
      | .error _ => none) b (by simp [hb]) l

theorem bucketPushes_filter_b (σ : List Nat → String) (fs : ModelFS) (s : Nat)
    (l : List String) (b : String)
    (hb : HashCalculator.calculate_partial_hash σ fs b = .error .IoError) :
    bucketPushes σ fs (s, l.filter (fun p => decide (p ≠ b))) = bucketPushes σ fs (s, l) := by
  simp only [bucketPushes]
  rw [cph_filter_ne σ fs b hb l]

theorem bucketPushes_small (σ : List Nat → String) (fs : ModelFS) (s : Nat)
    (l : List String) (h : l.length ≤ 1) : bucketPushes σ fs (s, l) = [] := by
  cases l with
  | nil => rfl
  | cons p rest =>
    cases rest with
    | nil =>
      simp only [bucketPushes, DuplicateDetector.calculate_partial_hashes]
      cases hph : HashCalculator.calculate_partial_hash σ fs p <;>
        simp [hph, List.filterMap_cons, pushEntry]
    | cons q r2 => simp at h

theorem foldl_hashPush_coherent (σ : List Nat → String) (fs : ModelFS) (s : Nat)
    (l : List String) :
    ∀ (m : List (String × List (String × Nat))) (hc : HashCalculator),
      CacheCoherent σ fs hc →
      (l.foldl (DuplicateDetector.hashPush σ fs s) (m, hc)).1
          = (l.filterMap (pureEntry σ fs s)).foldl pushMap m ∧
      CacheCoherent σ fs (l.foldl (DuplicateDetector.hashPush σ fs s) (m, hc)).2 := by
  induction l with
  | nil => exact fun m hc h => ⟨rfl, h⟩
  | cons p rest ih =>
    intro m hc h
    obtain ⟨hv, hcoh⟩ := calculate_file_hash_coherent σ fs hc p h
    rw [List.foldl_cons]
    cases hres : HashCalculator.calculate_file_hash σ hc fs p with
    | mk res hc2 =>
      rw [hres] at hv hcoh
      simp only at hv hcoh
      cases hpure : pureHashResult σ fs p with
      | ok hr =>
        rw [hpure] at hv
        subst hv
        have hstep : DuplicateDetector.hashPush σ fs s (m, hc) p
            = (pushEntry m hr.hash (p, s), hc2) := by
          simp [DuplicateDetector.hashPush, hres]
        rw [hstep, List.filterMap_cons]
        simp only [pureEntry, hpure]
        rw [List.foldl_cons]
        exact ih (pushMap m (hr.hash, (p, s))) hc2 hcoh
      | error e =>
        rw [hpure] at hv
        subst hv
        have hstep : DuplicateDetector.hashPush σ fs s (m, hc) p = (m, hc2) := by
          simp [DuplicateDetector.hashPush, hres]
        rw [hstep, List.filterMap_cons]
        simp only [pureEntry, hpure]
        exact ih m hc2 hcoh

theorem foldl_bucketStep_coherent (σ : List Nat → String) (fs : ModelFS) (s : Nat)
    (pgs : List (String × List String)) :
    ∀ (st : List (String × List (String × Nat)) × HashCalculator),
      CacheCoherent σ fs st.2 →
      (pgs.foldl (fun st2 pg =>
          if pg.2.length > 1 then pg.2.foldl (DuplicateDetector.hashPush σ fs s) st2
          else st2) st).1
        = ((pgs.filter (fun pg => pg.2.length > 1)).flatMap
            (fun pg => pg.2.filterMap (pureEntry σ fs s))).foldl pushMap st.1 ∧
      CacheCoherent σ fs
        (pgs.foldl (fun st2 pg =>
          if pg.2.length > 1 then pg.2.foldl (DuplicateDetector.hashPush σ fs s) st2
          else st2) st).2 := by
  induction pgs with
  | nil => exact fun st h => ⟨rfl, h⟩
  | cons pg rest ih =>
    intro st h
    obtain ⟨m0, hc0⟩ := st
    rw [List.foldl_cons]
    by_cases hlen : pg.2.length > 1
    · rw [if_pos hlen]
      obtain ⟨h1, h2⟩ := foldl_hashPush_coherent σ fs s pg.2 m0 hc0 h
      obtain ⟨h3, h4⟩ := ih _ h2
      refine ⟨?_, h4⟩
      rw [h3, h1]
      rw [List.filter_cons, if_pos (by simpa using hlen), List.flatMap_cons,
        List.foldl_append]
    · rw [if_neg hlen]
      obtain ⟨h3, h4⟩ := ih _ h
      refine ⟨?_, h4⟩
      rw [h3]
      rw [List.filter_cons, if_neg (by simpa using hlen)]

theorem processBucket_coherent (σ : List Nat → String) (fs : ModelFS)
    (st : List (String × List (String × Nat)) × HashCalculator) (bucket : Nat × List String)
    (h : CacheCoherent σ fs st.2) :
    (DuplicateDetector.processBucket σ fs st bucket).1
        = (bucketPushes σ fs bucket).foldl pushMap st.1 ∧
    CacheCoherent σ fs (DuplicateDetector.processBucket σ fs st bucket).2 := by
  simp only [DuplicateDetector.processBucket, bucketPushes]
  exact foldl_bucketStep_coherent σ fs bucket.1 _ st h

theorem foldl_processBucket_coherent (σ : List Nat → String) (fs : ModelFS)
    (sgs : List (Nat × List String)) :
    ∀ (st : List (String × List (String × Nat)) × HashCalculator),
      CacheCoherent σ fs st.2 →
      (sgs.foldl (DuplicateDetector.processBucket σ fs) st).1
          = (sgs.flatMap (bucketPushes σ fs)).foldl pushMap st.1 ∧
      CacheCoherent σ fs (sgs.foldl (DuplicateDetector.processBucket σ fs) st).2 := by
  induction sgs with
  | nil => exact fun st h => ⟨rfl, h⟩
  | cons bkt rest ih =>
    intro st h
    rw [List.foldl_cons]
    obtain ⟨h1, h2⟩ := processBucket_coherent σ fs st bkt h
    obtain ⟨h3, h4⟩ := ih _ h2
    refine ⟨?_, h4⟩
    rw [h3, List.flatMap_cons, List.foldl_append, h1]

/-- With a coherent cache, the hash-grouping phase is the pure push fold of
the per-bucket push sequences, with singleton hash groups discarded. -/
theorem cagbh_pure (σ : List Nat → String) (det : DuplicateDetector) (fs : ModelFS)
    (size_groups : List (Nat × List String))
    (h : CacheCoherent σ fs det.hash_calculator) :
    (DuplicateDetector.calculate_and_group_by_hash σ det fs size_groups).1
      = ((size_groups.flatMap (bucketPushes σ fs)).foldl pushMap []).filter
          (fun e => e.2.length > 1) := by
  simp only [DuplicateDetector.calculate_and_group_by_hash]
  rw [(foldl_processBucket_coherent σ fs size_groups ([], det.hash_calculator) h).1]

theorem keysNodup_empty {κ ν : Type} : keysNodup ([] : List (κ × ν)) := by
  simp [keysNodup]

theorem keysNodup_filter {κ ν : Type} {m : List (κ × ν)} (P : κ × ν → Bool)
    (h : keysNodup m) : keysNodup (m.filter P) :=
  List.Nodup.sublist (List.Sublist.map Prod.fst (List.filter_sublist m)) h

theorem filterMap_ann_filter {α κ : Type} [DecidableEq α] {ann : α → Option (κ × α)}
    (hann : ∀ p x, ann p = some x → x.2 = p) (b : α) (l : List α) :
    (l.filter (fun p => decide (p ≠ b))).filterMap ann
      = (l.filterMap ann).filter (fun x => decide (x.2 ≠ b)) := by
  simp only [decide_not]
  induction l with
  | nil => rfl
  | cons p rest ih =>
    by_cases hp : p = b
    · subst hp
      cases hx : ann p with
      | none => simp [List.filter_cons, List.filterMap_cons, hx, ih]
      | some x =>
        have hxp := hann p x hx
        simp [List.filter_cons, List.filterMap_cons, hx, ih, hxp]
    · cases hx : ann p with
      | none => simp [List.filter_cons, List.filterMap_cons, hx, ih, hp]
      | some x =>
        have hxp := hann p x hx
        simp [List.filter_cons, List.filterMap_cons, hx, ih, hp, hxp]

theorem map_snd_filter_snd {κ α : Type} [DecidableEq α] (l : List (κ × α)) (b : α) :
    ((l.filter (fun x => decide (x.2 ≠ b))).map Prod.snd)
      = (l.map Prod.snd).filter (fun v => decide (v ≠ b)) := by
  simp only [decide_not]
  induction l with
  | nil => rfl
  | cons x rest ih =>
    by_cases hx : x.2 = b
    · simp [List.filter_cons, hx, ih]
    · simp [List.filter_cons, hx, ih]

theorem keysNodup_group_by_size (det : DuplicateDetector) (fs : ModelFS)
    (files : List String) : keysNodup (DuplicateDetector.group_by_size det fs files) := by
  rw [group_by_size_eq_keyed]
  exact keysNodup_filter _ (keysNodup_foldl_pushMap _ _ keysNodup_empty)

theorem alookup_group_by_size (det : DuplicateDetector) (fs : ModelFS)
    (files : List String) (s : Nat) :
    alookup (DuplicateDetector.group_by_size det fs files) s
      = if 1 < (bucketOf det fs files s).length then some (bucketOf det fs files s)
        else none := by
  rw [group_by_size_eq_keyed]
  rw [alookup_filter _ (keysNodup_foldl_pushMap _ _ keysNodup_empty)]
  rw [foldl_pushMap_alookup]
  cases hbl : bucketOf det fs files s with
  | nil =>
    have : ((files.filterMap (fun p => (sizeKey det fs p).map (fun k => (k, p)))).filter
        (fun kv => decide (kv.1 = s))).map Prod.snd = [] := hbl
    simp [alookup, this]
  | cons a t =>
    have : ((files.filterMap (fun p => (sizeKey det fs p).map (fun k => (k, p)))).filter
        (fun kv => decide (kv.1 = s))).map Prod.snd = a :: t := hbl
    simp only [alookup, this]
    by_cases hlen : 1 < (a :: t).length
    · simp [hlen]
    · simp [hlen]

theorem bucketOf_filter_b (det : DuplicateDetector) (fs : ModelFS) (files : List String)
    (b : String) (s : Nat) :
    bucketOf det fs (files.filter (fun p => decide (p ≠ b))) s
      = (bucketOf det fs files s).filter (fun v => decide (v ≠ b)) := by
  simp only [bucketOf]
  rw [@filterMap_ann_filter String Nat _ (fun p => (sizeKey det fs p).map (fun k => (k, p)))
    (fun p x hx => ?hside) b files]
  · rw [List.filter_comm, map_snd_filter_snd]
  case hside =>
    have hx2 : (sizeKey det fs p).map (fun k => (k, p)) = some x := hx
    cases hk : sizeKey det fs p with
    | none => rw [hk] at hx2; exact Option.noConfusion hx2
    | some k =>
      rw [hk] at hx2
      have h3 := Option.some.inj hx2
      rw [← h3]

theorem alookup_gbs_filter_b (det : DuplicateDetector) (fs : ModelFS) (files : List String)
    (b : String) (s : Nat) :
    alookup (DuplicateDetector.group_by_size det fs
        (files.filter (fun p => decide (p ≠ b)))) s
      = match alookup (DuplicateDetector.group_by_size det fs files) s with
        | some l =>
          if 1 < (l.filter (fun v => decide (v ≠ b))).length
          then some (l.filter (fun v => decide (v ≠ b))) else none
        | none => none := by
  rw [alookup_group_by_size, alookup_group_by_size, bucketOf_filter_b]
  by_cases h1 : 1 < (bucketOf det fs files s).length
  · simp only [h1, if_true]
  · simp only [h1, if_false]
    have hle := List.length_filter_le (fun v => !decide (v = b)) (bucketOf det fs files s)
    have h2 : ¬ 1 < ((bucketOf det fs files s).filter (fun v => !decide (v = b))).length :=
      fun hcontra => h1 (lt_of_lt_of_le hcontra hle)
    simp [h2]

theorem mem_val_foldl_swapPush {α κ : Type} [DecidableEq κ] {PL : List (α × κ)}
    {pg : κ × List α} (hpg : pg ∈ PL.foldl (fun m ph => pushEntry m ph.2 ph.1) [])
    {p : α} (hp : p ∈ pg.2) : ∃ x ∈ PL, x.1 = p := by
  rw [foldl_swapPush_eq_pushMap] at hpg
  have hnd := keysNodup_foldl_pushMap (PL.map (fun x => (x.2, x.1))) [] keysNodup_empty
  have halk := mem_alookup_of_nodup hnd hpg
  rw [foldl_pushMap_alookup] at halk
  cases hbl : ((PL.map (fun x => (x.2, x.1))).filter
      (fun kv => decide (kv.1 = pg.1))).map Prod.snd with
  | nil =>
    rw [hbl] at halk
    exact Option.noConfusion halk
  | cons a t =>
    rw [hbl] at halk
    have hv := Option.some.inj halk
    rw [← hv] at hp
    have hp2 : p ∈ ((PL.map (fun x => (x.2, x.1))).filter
        (fun kv => decide (kv.1 = pg.1))).map Prod.snd := hbl ▸ hp
    rw [List.mem_map] at hp2
    obtain ⟨x, hxf, hxs⟩ := hp2
    have hxmem := (List.mem_filter.mp hxf).1
    rw [List.mem_map] at hxmem
    obtain ⟨y, hy, hyx⟩ := hxmem
    refine ⟨y, hy, ?_⟩
    rw [← hyx] at hxs
    exact hxs

theorem sizeKey_of_mem_group_by_size (det : DuplicateDetector) (fs : ModelFS)
    (files : List String) {e : Nat × List String}
    (he : e ∈ DuplicateDetector.group_by_size det fs files) {p : String} (hp : p ∈ e.2) :
    sizeKey det fs p = some e.1 := by
  rw [group_by_size_eq_keyed] at he
  have he2 := (List.mem_filter.mp he).1
  have hnd := keysNodup_foldl_pushMap
    (files.filterMap (fun q => (sizeKey det fs q).map (fun k => (k, q)))) []
    keysNodup_empty
  have halk := mem_alookup_of_nodup hnd he2
  rw [foldl_pushMap_alookup] at halk
  cases hbl : ((files.filterMap (fun q => (sizeKey det fs q).map (fun k => (k, q)))).filter
      (fun kv => decide (kv.1 = e.1))).map Prod.snd with
  | nil =>
    rw [hbl] at halk
    exact Option.noConfusion halk
  | cons a t =>
    rw [hbl] at halk
    have hv := Option.some.inj halk
    rw [← hv] at hp
    have hp2 : p ∈ ((files.filterMap
        (fun q => (sizeKey det fs q).map (fun k => (k, q)))).filter
          (fun kv => decide (kv.1 = e.1))).map Prod.snd := hbl ▸ hp
    rw [List.mem_map] at hp2
    obtain ⟨x, hxf, hxs⟩ := hp2
    have hxkey : x.1 = e.1 := by simpa using (List.mem_filter.mp hxf).2
    have hxmem := (List.mem_filter.mp hxf).1
    rw [List.mem_filterMap] at hxmem
    obtain ⟨q, _, hqx⟩ := hxmem
    cases hk : sizeKey det fs q with
    | none =>
      rw [hk] at hqx
      exact Option.noConfusion hqx
    | some k =>
      rw [hk] at hqx
      have hx := Option.some.inj hqx
      rw [← hx] at hxs hxkey
      simp only at hxs hxkey
      rw [← hxs, hk, hxkey]

theorem sizeKey_some_size (det : DuplicateDetector) (fs : ModelFS) (p : String) (s : Nat)
    (h : sizeKey det fs p = some s) : ∃ f, fs.lookupFile p = some f ∧ FSFile.size f = s := by
  unfold sizeKey at h
  cases hf : fs.lookupFile p with
  | none =>
    rw [hf] at h
    exact Option.noConfusion h
  | some f =>
    rw [hf] at h
    dsimp only at h
    by_cases hm : FSFile.size f ≥ det.options.min_size
    · rw [if_pos hm] at h
      exact ⟨f, rfl, Option.some.inj h⟩
    · rw [if_neg hm] at h
      exact Option.noConfusion h

theorem mem_bucketPushes (σ : List Nat → String) (fs : ModelFS) {s : Nat} {l : List String}
    {kv : String × (String × Nat)} (h : kv ∈ bucketPushes σ fs (s, l)) :
    ∃ p f, fs.lookupFile p = some f ∧ f.readable = true ∧
      kv = (σ f.content, (p, s)) ∧ p ∈ l := by
  simp only [bucketPushes] at h
  rw [List.mem_flatMap] at h
  obtain ⟨pg, hpg, hkv⟩ := h
  rw [List.mem_filterMap] at hkv
  obtain ⟨p, hp, hpe⟩ := hkv
  have hpl : p ∈ l := by
    have hpg2 := (List.mem_filter.mp hpg).1
    obtain ⟨x, hx, hx1⟩ := mem_val_foldl_swapPush hpg2 hp
    simp only [DuplicateDetector.calculate_partial_hashes, List.mem_filterMap] at hx
    obtain ⟨q, hq, hqx⟩ := hx
    cases hph : HashCalculator.calculate_partial_hash σ fs q with
    | error e =>
      rw [hph] at hqx
      exact Option.noConfusion hqx
    | ok hr =>
      rw [hph] at hqx
      have := Option.some.inj hqx
      rw [← this] at hx1
      simp only at hx1
      exact hx1 ▸ hq
  cases hres : pureHashResult σ fs p with
  | error e =>
    rw [pureEntry, hres] at hpe
    exact Option.noConfusion hpe
  | ok hr =>
    rw [pureEntry, hres] at hpe
    have hkv2 := Option.some.inj hpe
    unfold pureHashResult at hres
    cases hf : fs.lookupFile p with
    | none =>
      rw [hf] at hres
      exact Except.noConfusion hres
    | some f =>
      rw [hf] at hres
      dsimp only at hres
      cases hread : f.readable with
      | false =>
        rw [hread] at hres
        simp only [Bool.false_eq_true, if_false] at hres
        exact Except.noConfusion hres
      | true =>
        rw [hread] at hres
        simp only [if_true] at hres
        have hhr := Except.ok.inj hres
        refine ⟨p, f, hf, hread, ?_, hpl⟩
        rw [← hkv2, ← hhr]

/-- The push sequence filtered to one full-hash key is unchanged when the
unreadable path `b` is dropped from the scan: every key's pushes live in the
single size bucket of that key's content (collision-freedom), and within a
bucket `b` contributes nothing. -/
theorem keyFilter_pushes_eq (σ : List Nat → String) (det : DuplicateDetector) (fs : ModelFS)
    (files : List String) (b : String) (fb : FSFile)
    (hb : fs.lookupFile b = some fb) (hrb : fb.readable = false)
    (hinj : ContentInjective σ fs) (h : String) :
    ((DuplicateDetector.group_by_size det fs
        (files.filter (fun p => decide (p ≠ b)))).flatMap (bucketPushes σ fs)).filter
          (fun kv => decide (kv.1 = h))
      = ((DuplicateDetector.group_by_size det fs files).flatMap
          (bucketPushes σ fs)).filter (fun kv => decide (kv.1 = h)) := by
  rw [filter_flatMap, filter_flatMap]
  by_cases hex : ∃ q f, fs.lookupFile q = some f ∧ f.readable = true ∧ σ f.content = h
  · obtain ⟨q, f0, hq, hqr, hqh⟩ := hex
    have hloc : ∀ (e : Nat × List String), (∀ p ∈ e.2, sizeKey det fs p = some e.1) →
        e.1 ≠ FSFile.size f0 →
        (bucketPushes σ fs e).filter (fun kv => decide (kv.1 = h)) = [] := by
      intro e hmem hne
      rw [List.filter_eq_nil_iff]
      intro kv hkv hkey
      obtain ⟨p, f, hpf, hpr, hkveq, hpl⟩ := mem_bucketPushes σ fs hkv
      have hkv1 : kv.1 = σ f.content := by rw [hkveq]
      have hcontents : f.content = f0.content := by
        refine hinj (p, f) (alookup_mem hpf) (q, f0) (alookup_mem hq) ?_
        simp only
        rw [← hkv1, of_decide_eq_true hkey, ← hqh]
      obtain ⟨f2, hpf2, hsz⟩ := sizeKey_some_size det fs p e.1 (hmem p hpl)
      rw [hpf] at hpf2
      have hf2 := Option.some.inj hpf2
      subst hf2
      refine hne ?_
      rw [← hsz]
      simp only [FSFile.size, hcontents]
    have hfun1 : ∀ e ∈ DuplicateDetector.group_by_size det fs files, e.1 ≠ FSFile.size f0 →
        (bucketPushes σ fs e).filter (fun kv => decide (kv.1 = h)) = [] :=
      fun e he hne => hloc e (fun p hp => sizeKey_of_mem_group_by_size det fs files he hp) hne
    have hfun2 : ∀ e ∈ DuplicateDetector.group_by_size det fs
        (files.filter (fun p => decide (p ≠ b))), e.1 ≠ FSFile.size f0 →
        (bucketPushes σ fs e).filter (fun kv => decide (kv.1 = h)) = [] :=
      fun e he hne => hloc e
        (fun p hp => sizeKey_of_mem_group_by_size det fs _ he hp) hne
    rw [@flatMap_single_key _ _ _ _ _
      (fun e => (bucketPushes σ fs e).filter (fun kv => decide (kv.1 = h)))
      (FSFile.size f0) (keysNodup_group_by_size det fs _) hfun2]
    rw [@flatMap_single_key _ _ _ _ _
      (fun e => (bucketPushes σ fs e).filter (fun kv => decide (kv.1 = h)))
      (FSFile.size f0) (keysNodup_group_by_size det fs files) hfun1]
    rw [alookup_gbs_filter_b det fs files b (FSFile.size f0)]
    cases halk : alookup (DuplicateDetector.group_by_size det fs files) (FSFile.size f0) with
    | none => rfl
    | some l1 =>
      by_cases hl : 1 < (l1.filter (fun v => decide (v ≠ b))).length
      · simp only [hl, if_true]
        rw [bucketPushes_filter_b σ fs (FSFile.size f0) l1 b
          (partialHash_err_of_unreadable σ fs b fb hb hrb)]
      · simp only [hl, if_false]
        rw [← bucketPushes_filter_b σ fs (FSFile.size f0) l1 b
          (partialHash_err_of_unreadable σ fs b fb hb hrb)]
        rw [bucketPushes_small σ fs _ _ (Nat.not_lt.mp hl)]
        rfl
  · have hnone : ∀ (e : Nat × List String),
        (bucketPushes σ fs e).filter (fun kv => decide (kv.1 = h)) = [] := by
      intro e
      rw [List.filter_eq_nil_iff]
      intro kv hkv hkey
      obtain ⟨p, f, hpf, hpr, hkveq, hpl⟩ := mem_bucketPushes σ fs hkv
      refine hex ⟨p, f, hpf, hpr, ?_⟩
      have hkv1 : kv.1 = σ f.content := by rw [hkveq]
      rw [← hkv1, of_decide_eq_true hkey]
    rw [flatMap_eq_nil_of (fun e _ => hnone e), flatMap_eq_nil_of (fun e _ => hnone e)]

theorem create_groups_perm (fs : ModelFS) {hg1 hg2 : List (String × List (String × Nat))}
    (h : List.Perm hg2 hg1) :
    List.Perm (DuplicateDetector.create_duplicate_groups fs hg2)
      (DuplicateDetector.create_duplicate_groups fs hg1) := by
  simp only [DuplicateDetector.create_duplicate_groups]
  exact ((stableSortBy_perm _ _).trans (h.filterMap _)).trans (stableSortBy_perm _ _).symm

/-- The two hash-group maps (with and without the unreadable path `b` in the
scan) are permutations of each other with identical entries. -/
theorem hashGroups_perm_drop_b (σ : List Nat → String) (det : DuplicateDetector)
    (fs : ModelFS) (files : List String) (b : String) (fb : FSFile)
    (hb : fs.lookupFile b = some fb) (hrb : fb.readable = false)
    (hinj : ContentInjective σ fs) :
    List.Perm
      ((((DuplicateDetector.group_by_size det fs
          (files.filter (fun p => decide (p ≠ b)))).flatMap
            (bucketPushes σ fs)).foldl pushMap []).filter (fun e => e.2.length > 1))
      ((((DuplicateDetector.group_by_size det fs files).flatMap
            (bucketPushes σ fs)).foldl pushMap []).filter (fun e => e.2.length > 1)) := by
  refine perm_of_alookup_eq
    (keysNodup_filter _ (keysNodup_foldl_pushMap _ _ keysNodup_empty))
    (keysNodup_filter _ (keysNodup_foldl_pushMap _ _ keysNodup_empty)) (fun h => ?_)
  rw [alookup_filter _ (keysNodup_foldl_pushMap _ _ keysNodup_empty),
    alookup_filter _ (keysNodup_foldl_pushMap _ _ keysNodup_empty),
    foldl_pushMap_alookup, foldl_pushMap_alookup,
    keyFilter_pushes_eq σ det fs files b fb hb hrb hinj h]

/-! ## Claims -/

/-- C10: for every input, the `DuplicateAnalysisResult` returned by
`find_duplicates` is internally consistent with its `groups` list:
`total_groups` is the number of groups, `total_files` the sum of member
counts, `total_size` the sum of `size × member count`, and `wasted_space`
the sum of the groups' `wasted_space`. -/
theorem C10_totals_consistent (σ : List Nat → String) (det : DuplicateDetector)
    (fs : ModelFS) (paths : List String) :
    (DuplicateDetector.find_duplicates σ det fs paths).total_groups
        = (DuplicateDetector.find_duplicates σ det fs paths).groups.length ∧
    (DuplicateDetector.find_duplicates σ det fs paths).total_files
        = ((DuplicateDetector.find_duplicates σ det fs paths).groups.map
            (fun g => g.files.length)).sum ∧
    (DuplicateDetector.find_duplicates σ det fs paths).total_size
        = ((DuplicateDetector.find_duplicates σ det fs paths).groups.map
            (fun g => g.size * g.files.length)).sum ∧
    (DuplicateDetector.find_duplicates σ det fs paths).wasted_space
        = ((DuplicateDetector.find_duplicates σ det fs paths).groups.map
            (fun g => g.wasted_space)).sum :=
  ⟨rfl, rfl, rfl, rfl⟩

/-- C2: every group returned by `find_duplicates` has at least two member
files and satisfies `wasted_space = size * (member_count - 1)`. -/
theorem C2_group_invariants (σ : List Nat → String) (det : DuplicateDetector)
    (fs : ModelFS) (paths : List String) (g : DuplicateGroup)
    (hg : g ∈ (DuplicateDetector.find_duplicates σ det fs paths).groups) :
    2 ≤ g.files.length ∧ g.wasted_space = g.size * (g.files.length - 1) := by
  have h1 : g ∈ DuplicateDetector.create_duplicate_groups fs
      ((DuplicateDetector.calculate_and_group_by_hash σ det fs
        (DuplicateDetector.group_by_size det fs
          (DuplicateDetector.scan_files det fs paths))).1) := hg
  simp only [DuplicateDetector.create_duplicate_groups] at h1
  rw [mem_stableSortBy] at h1
  obtain ⟨hg2, hmem, heq⟩ := List.mem_filterMap.mp h1
  by_cases hlen : hg2.2.length < 2
  · rw [if_pos hlen] at heq
    exact Option.noConfusion heq
  · rw [if_neg hlen] at heq
    have hgeq := (Option.some.inj heq).symm
    subst hgeq
    have hflen : (markFirstOriginal
        (stableSortBy (fun a b => decide (a.modified_time ≤ b.modified_time))
          (hg2.2.enum.map (fun ip =>
            ({ path := ip.2.1, name := (get_filename ip.2.1).getD "",
               modified_time := mtimeOf fs ip.2.1,
               is_original := ip.1 == 0 } : DuplicateFile))))).length
        = hg2.2.length := by
      rw [markFirstOriginal_length, length_stableSortBy, List.length_map, List.enum_length]
    constructor
    · simpa [hflen] using Nat.le_of_not_lt hlen
    · simp [hflen]

/-- Witness for C2 at a concrete input: `fs0` yields exactly the group `g0`,
which has two members and `wasted_space = 3 = 3 * (2 - 1)`. -/
theorem C2_group_invariants_witness :
    2 ≤ g0.files.length ∧ g0.wasted_space = g0.size * (g0.files.length - 1) :=
  C2_group_invariants σ0 det0 fs0 ["r"] g0 (by decide)

/-- C1 (code bug): evaluating `find_duplicates` on two byte-identical files
whose traversal-first member has the later mtime yields a group with **two**
members flagged `is_original`: `create_duplicate_groups` seeds
`is_original = (index == 0)` before the mtime sort and only sets the head
flag after sorting, never clearing the stale one. -/
theorem C1_code_bug_two_originals :
    ((DuplicateDetector.find_duplicates σ0 det0 fs0 ["r"]).groups.map
      (fun g => (g.files.filter (fun f => f.is_original)).length)) = [2] := by
  decide

/-- C9 (code bug): on `g9`, `suggest_files_to_delete` returns exactly the
path of the member with `is_original = true`: after sorting scores
descending, `original_index` is taken from the **first** negative score in
that order, which is the −20 desktop copy, not the −100 original, so the
original itself is suggested for deletion. -/
theorem C9_code_bug_original_suggested :
    DuplicateDetector.suggest_files_to_delete g9 = ["c:\\data\\a.txt"] ∧
    DuplicateDetector.suggest_original g9
      = some ⟨"c:\\data\\a.txt", "a.txt", 1, true⟩ := by
  decide

/-- C7: for every readable file, `calculate_partial_hash` returns the SHA-256
digest (modelled by `σ`) of exactly the first `min (file_size) 64KiB` bytes
of the content, and reports that many bytes processed. -/
theorem C7_partial_hash_of_first_64k (σ : List Nat → String) (fs : ModelFS) (path : String)
    (f : FSFile) (h1 : fs.lookupFile path = some f) (h2 : f.readable = true) :
    HashCalculator.calculate_partial_hash σ fs path
      = .ok ⟨σ (f.content.take PARTIAL_HASH_SIZE), true,
             min (FSFile.size f) PARTIAL_HASH_SIZE⟩ := by
  simp [HashCalculator.calculate_partial_hash, h1, h2, List.length_take, FSFile.size,
    Nat.min_comm]

/-- Witness for C7: the three-byte file "r/a" of `fs0` is digested whole. -/
theorem C7_partial_hash_of_first_64k_witness :
    HashCalculator.calculate_partial_hash σ0 fs0 "r/a"
      = .ok ⟨σ0 ([1, 2, 3].take PARTIAL_HASH_SIZE), true,
             min (FSFile.size ⟨[1, 2, 3], 10, true⟩) PARTIAL_HASH_SIZE⟩ :=
  C7_partial_hash_of_first_64k σ0 fs0 "r/a" ⟨[1, 2, 3], 10, true⟩ (by decide) rfl

/-- C3: with the cache enabled, a path that has a cache entry gets the cached
hash back exactly when the file's current mtime and size both equal the
cached values; on any mismatch the hash is recomputed from the file's current
content and the cache entry is refreshed with the new (hash, mtime, size). -/
theorem C3_cache_validated_by_mtime_size (σ : List Nat → String) (hc : HashCalculator)
    (fs : ModelFS) (path : String) (f : FSFile) (c : CachedHash)
    (hen : hc.cache_enabled = true) (hcap : 1 ≤ hc.cacheCap)
    (hf : fs.lookupFile path = some f) (hr : f.readable = true)
    (hcache : alookup hc.cache path = some c) :
    ((c.modified_time = f.mtime ∧ c.file_size = FSFile.size f) →
        (HashCalculator.calculate_file_hash σ hc fs path).1
          = .ok ⟨c.hash, false, FSFile.size f⟩) ∧
    (¬(c.modified_time = f.mtime ∧ c.file_size = FSFile.size f) →
        (HashCalculator.calculate_file_hash σ hc fs path).1
            = .ok ⟨σ f.content, false, f.content.length⟩ ∧
        alookup (HashCalculator.calculate_file_hash σ hc fs path).2.cache path
            = some ⟨σ f.content, f.mtime, FSFile.size f⟩) := by
  constructor
  · intro hmatch
    simp [HashCalculator.calculate_file_hash, HashCalculator.calculate_file_hash_internal,
      hf, hr, hen, hcache, hmatch]
  · intro hmiss
    by_cases hbig : FSFile.size f > LARGE_FILE_THRESHOLD
    · constructor
      · simp [HashCalculator.calculate_file_hash, HashCalculator.calculate_file_hash_internal,
          hf, hr, hen, hcache, hmiss, hbig, HashCalculator.calculate_large_file_hash,
          HashCalculator.hashAndCache]
      · simp [HashCalculator.calculate_file_hash, HashCalculator.calculate_file_hash_internal,
          hf, hr, hen, hcache, hmiss, hbig, HashCalculator.calculate_large_file_hash,
          HashCalculator.hashAndCache, alookup_lruPut _ _ _ _ hcap]
    · constructor
      · simp [HashCalculator.calculate_file_hash, HashCalculator.calculate_file_hash_internal,
          hf, hr, hen, hcache, hmiss, hbig, HashCalculator.hashAndCache]
      · simp [HashCalculator.calculate_file_hash, HashCalculator.calculate_file_hash_internal,
          hf, hr, hen, hcache, hmiss, hbig, HashCalculator.hashAndCache,
          alookup_lruPut _ _ _ _ hcap]

/-- Witness for C3, both branches: with a matching cache entry (`hc3`) the
cached hash "HH" is returned untouched; with a stale mtime (`hc4`) the hash
is recomputed from the content `[9,9,9]` and the entry refreshed. -/
theorem C3_cache_validated_by_mtime_size_witness :
    (HashCalculator.calculate_file_hash σ0 hc3 fs3 "p").1
        = .ok ⟨"HH", false, FSFile.size ⟨[9, 9, 9], 10, true⟩⟩ ∧
    (HashCalculator.calculate_file_hash σ0 hc4 fs3 "p").1
        = .ok ⟨σ0 [9, 9, 9], false, 3⟩ ∧
    alookup (HashCalculator.calculate_file_hash σ0 hc4 fs3 "p").2.cache "p"
        = some ⟨σ0 [9, 9, 9], 10, FSFile.size ⟨[9, 9, 9], 10, true⟩⟩ := by
  refine ⟨(C3_cache_validated_by_mtime_size σ0 hc3 fs3 "p" ⟨[9, 9, 9], 10, true⟩ ⟨"HH", 10, 3⟩
      rfl (by decide) (by decide) rfl (by decide)).1 (by decide), ?_, ?_⟩
  · exact ((C3_cache_validated_by_mtime_size σ0 hc4 fs3 "p" ⟨[9, 9, 9], 10, true⟩ ⟨"HH", 11, 3⟩
      rfl (by decide) (by decide) rfl (by decide)).2 (by decide)).1
  · exact ((C3_cache_validated_by_mtime_size σ0 hc4 fs3 "p" ⟨[9, 9, 9], 10, true⟩ ⟨"HH", 11, 3⟩
      rfl (by decide) (by decide) rfl (by decide)).2 (by decide)).2

/-- C6: `DuplicateDetector::quick_compare` compares sizes first, then partial
hashes, then full hashes: (i) differing sizes return `false` with no full-hash
computation (hence no full-content read) and the calculator untouched;
(ii) differing partial hashes return `false` with no full-hash computation;
(iii) a full hash is computed for some path only when the metadata reads
succeeded, the sizes agree and the partial hashes agree. -/
theorem C6_quick_compare_short_circuit (σ : List Nat → String) (det : DuplicateDetector)
    (fs : ModelFS) (p1 p2 : String) :
    (∀ m1 m2, fs.lookupFile p1 = some m1 → fs.lookupFile p2 = some m2 →
        FSFile.size m1 ≠ FSFile.size m2 →
        DuplicateDetector.quick_compare σ det fs p1 p2 = (false, det.hash_calculator, [])) ∧
    (∀ r1 r2, HashCalculator.calculate_partial_hash σ fs p1 = .ok r1 →
        HashCalculator.calculate_partial_hash σ fs p2 = .ok r2 → r1.hash ≠ r2.hash →
        (DuplicateDetector.quick_compare σ det fs p1 p2).1 = false ∧
        (DuplicateDetector.quick_compare σ det fs p1 p2).2.2 = []) ∧
    ((DuplicateDetector.quick_compare σ det fs p1 p2).2.2 ≠ [] →
        (∃ m1 m2, fs.lookupFile p1 = some m1 ∧ fs.lookupFile p2 = some m2 ∧
            FSFile.size m1 = FSFile.size m2) ∧
        (∃ r1 r2, HashCalculator.calculate_partial_hash σ fs p1 = .ok r1 ∧
            HashCalculator.calculate_partial_hash σ fs p2 = .ok r2 ∧ r1.hash = r2.hash)) := by
  refine ⟨?_, ?_, ?_⟩
  · intro m1 m2 h1 h2 hne
    simp [DuplicateDetector.quick_compare, h1, h2, hne]
  · intro r1 r2 h1 h2 hne
    cases hm1 : fs.lookupFile p1 with
    | none => simp [DuplicateDetector.quick_compare, hm1]
    | some m1 =>
      cases hm2 : fs.lookupFile p2 with
      | none => simp [DuplicateDetector.quick_compare, hm1, hm2]
      | some m2 =>
        by_cases hsz : FSFile.size m1 ≠ FSFile.size m2
        · simp [DuplicateDetector.quick_compare, hm1, hm2, hsz]
        · simp [DuplicateDetector.quick_compare, hm1, hm2, hsz,
            HashCalculator.quick_compare, h1, h2, hne]
  · intro hcalls
    cases hm1 : fs.lookupFile p1 with
    | none => simp [DuplicateDetector.quick_compare, hm1] at hcalls
    | some m1 =>
      cases hm2 : fs.lookupFile p2 with
      | none => simp [DuplicateDetector.quick_compare, hm1, hm2] at hcalls
      | some m2 =>
        by_cases hsz : FSFile.size m1 ≠ FSFile.size m2
        · simp [DuplicateDetector.quick_compare, hm1, hm2, hsz] at hcalls
        · refine ⟨⟨m1, m2, rfl, rfl, not_ne_iff.mp hsz⟩, ?_⟩
          cases hp1 : HashCalculator.calculate_partial_hash σ fs p1 with
          | error e =>
            simp [DuplicateDetector.quick_compare, hm1, hm2, hsz,
              HashCalculator.quick_compare, hp1] at hcalls
          | ok r1 =>
            cases hp2 : HashCalculator.calculate_partial_hash σ fs p2 with
            | error e =>
              simp [DuplicateDetector.quick_compare, hm1, hm2, hsz,
                HashCalculator.quick_compare, hp1, hp2] at hcalls
            | ok r2 =>
              by_cases hh : r1.hash ≠ r2.hash
              · simp [DuplicateDetector.quick_compare, hm1, hm2, hsz,
                  HashCalculator.quick_compare, hp1, hp2, hh] at hcalls
              · exact ⟨r1, r2, rfl, rfl, not_ne_iff.mp hh⟩

/-- Witness for C6: on two files of sizes 1 and 2, `quick_compare` returns
`false` with no full-hash invocation and the calculator untouched. -/
theorem C6_quick_compare_short_circuit_witness :
    DuplicateDetector.quick_compare σ0 det0 fs6 "a" "b" = (false, det0.hash_calculator, []) :=
  (C6_quick_compare_short_circuit σ0 det0 fs6 "a" "b").1 ⟨[1], 1, true⟩ ⟨[1, 2], 1, true⟩
    (by decide) (by decide) (by decide)

/-- C5 (counterexample): pausing a scan whose task has already terminated is
**not** a no-op: on `sTerm` (controller removed, status `Completed`),
`pause_scan` overwrites the stored status with `Paused`, so the state
changes. -/
theorem C5_counterexample_pause_after_terminated :
    ManagerState.pause_scan sTerm "s" ≠ sTerm := by decide

/-- C5 as amended: `pause_scan`/`resume_scan` are idempotent; on a scan whose
task has terminated (controller entry gone) they leave the controller map and
the result map unchanged, but they still overwrite the progress status with
`Paused` (resp. `Scanning`) whenever the progress entry exists. -/
theorem C5_amended_pause_resume (R : Type) (s : ManagerState R) (scan_id : String) :
    ManagerState.pause_scan (ManagerState.pause_scan s scan_id) scan_id
        = ManagerState.pause_scan s scan_id ∧
    ManagerState.resume_scan (ManagerState.resume_scan s scan_id) scan_id
        = ManagerState.resume_scan s scan_id ∧
    (alookup s.controllers scan_id = none →
      ((ManagerState.pause_scan s scan_id).controllers = s.controllers ∧
       (ManagerState.pause_scan s scan_id).results = s.results ∧
       ManagerState.statusOf (ManagerState.pause_scan s scan_id) scan_id
          = (ManagerState.statusOf s scan_id).map (fun _ => .Paused) ∧
       (ManagerState.resume_scan s scan_id).controllers = s.controllers ∧
       (ManagerState.resume_scan s scan_id).results = s.results ∧
       ManagerState.statusOf (ManagerState.resume_scan s scan_id) scan_id
          = (ManagerState.statusOf s scan_id).map (fun _ => .Scanning))) := by
  refine ⟨?_, ?_, ?_⟩
  · simp only [ManagerState.pause_scan, ManagerState.mk.injEq]
    exact ⟨setAssoc_setAssoc _ _ _ (fun c => rfl), setAssoc_setAssoc _ _ _ (fun v => rfl), trivial⟩
  · simp only [ManagerState.resume_scan, ManagerState.mk.injEq]
    exact ⟨setAssoc_setAssoc _ _ _ (fun c => rfl), setAssoc_setAssoc _ _ _ (fun v => rfl), trivial⟩
  · intro hnone
    refine ⟨?_, rfl, ?_, ?_, rfl, ?_⟩
    · simpa [ManagerState.pause_scan] using setAssoc_of_not_mem s.controllers scan_id _ hnone
    · simpa [ManagerState.pause_scan, ManagerState.statusOf]
        using alookup_setAssoc s.progressStatus scan_id (fun _ => ScanStatus.Paused)
    · simpa [ManagerState.resume_scan] using setAssoc_of_not_mem s.controllers scan_id _ hnone
    · simpa [ManagerState.resume_scan, ManagerState.statusOf]
        using alookup_setAssoc s.progressStatus scan_id (fun _ => ScanStatus.Scanning)

/-- Witness for C5 as amended, at the terminated state `sTerm`. -/
theorem C5_amended_pause_resume_witness :
    (ManagerState.pause_scan sTerm "s").controllers = sTerm.controllers ∧
    (ManagerState.pause_scan sTerm "s").results = sTerm.results ∧
    ManagerState.statusOf (ManagerState.pause_scan sTerm "s") "s"
        = (ManagerState.statusOf sTerm "s").map (fun _ => .Paused) ∧
    (ManagerState.resume_scan sTerm "s").controllers = sTerm.controllers ∧
    (ManagerState.resume_scan sTerm "s").results = sTerm.results ∧
    ManagerState.statusOf (ManagerState.resume_scan sTerm "s") "s"
        = (ManagerState.statusOf sTerm "s").map (fun _ => .Scanning) :=
  (C5_amended_pause_resume Nat sTerm "s").2.2 (by decide)

/-- C4 (counterexample): `start_scan` → task scanning → `cancel_scan` → the
task observes the flag and returns cleanly. The final status is `Idle` — not
one of `{Completed, Error}`, and the `ScanStatus` type has no `Cancelled`
variant at all — even though the scan has fully ended (result stored,
controller removed); so a cancelled scan does not end in a terminal status. -/
theorem C4_counterexample_cancel_ends_idle :
    ManagerState.statusOf s4d "s" = some .Idle ∧
    some ScanStatus.Idle ≠ some ScanStatus.Completed ∧
    some ScanStatus.Idle ≠ some ScanStatus.Error ∧
    ManagerState.resultOf s4d "s" = some 0 ∧
    alookup s4d.controllers "s" = none := by decide

/-- C4 as amended: the framework's own transitions observe: `cancel_scan`
sets the status to `Idle` (there is no `Cancelled` status); a cancelled task's
clean return stores the result and removes the controller while leaving the
status at `Idle` (cancellation is a clean early return, not an error); the
framework sets `Error` exactly on task failure; `clear_scan` removes the
entry; and `pause_scan` overwrites whatever status is stored — including a
terminal one — with `Paused`, so terminal statuses are not absorbing. -/
theorem C4_amended_status_transitions (R : Type) (s : ManagerState R) (scan_id : String)
    (r : R) (st : ScanStatus) (h : ManagerState.statusOf s scan_id = some st) :
    ManagerState.statusOf (ManagerState.cancel_scan s scan_id) scan_id = some .Idle ∧
    ManagerState.statusOf
        (ManagerState.taskEndOk (ManagerState.cancel_scan s scan_id) scan_id r) scan_id
      = some .Idle ∧
    ManagerState.resultOf
        (ManagerState.taskEndOk (ManagerState.cancel_scan s scan_id) scan_id r) scan_id
      = some r ∧
    alookup (ManagerState.taskEndOk
        (ManagerState.cancel_scan s scan_id) scan_id r).controllers scan_id = none ∧
    ManagerState.statusOf (ManagerState.taskEndErr s scan_id) scan_id = some .Error ∧
    ManagerState.statusOf (ManagerState.clear_scan s scan_id) scan_id = none ∧
    ManagerState.statusOf (ManagerState.pause_scan s scan_id) scan_id = some .Paused := by
  have hs : alookup s.progressStatus scan_id = some st := h
  have hcancel : ManagerState.statusOf (ManagerState.cancel_scan s scan_id) scan_id
      = some .Idle := by
    simp [ManagerState.cancel_scan, ManagerState.statusOf, alookup_setAssoc, hs]
  refine ⟨hcancel, hcancel, ?_, ?_, ?_, ?_, ?_⟩
  · simp [ManagerState.taskEndOk, ManagerState.resultOf, alookup_insertAssoc]
  · simp [ManagerState.taskEndOk, alookup_removeAssoc]
  · simp [ManagerState.taskEndErr, ManagerState.statusOf, alookup_setAssoc, hs]
  · simp [ManagerState.clear_scan, ManagerState.statusOf, alookup_removeAssoc]
  · simp [ManagerState.pause_scan, ManagerState.statusOf, alookup_setAssoc, hs]

/-- Witness for C4 as amended, on the running state `s4b` of the trace. -/
theorem C4_amended_status_transitions_witness :
    ManagerState.statusOf (ManagerState.cancel_scan s4b "s") "s" = some .Idle ∧
    ManagerState.statusOf
        (ManagerState.taskEndOk (ManagerState.cancel_scan s4b "s") "s" 0) "s" = some .Idle ∧
    ManagerState.resultOf
        (ManagerState.taskEndOk (ManagerState.cancel_scan s4b "s") "s" 0) "s" = some 0 ∧
    alookup (ManagerState.taskEndOk
        (ManagerState.cancel_scan s4b "s") "s" 0).controllers "s" = none ∧
    ManagerState.statusOf (ManagerState.taskEndErr s4b "s") "s" = some .Error ∧
    ManagerState.statusOf (ManagerState.clear_scan s4b "s") "s" = none ∧
    ManagerState.statusOf (ManagerState.pause_scan s4b "s") "s" = some .Paused :=
  C4_amended_status_transitions Nat s4b "s" 0 ScanStatus.Scanning (by decide)

/-- C8, counterexample to the "and counted" fragment: a run over `fs8e`, which
hits all three per-file error sites at once (a directory-walk error, a path
whose metadata read fails, and a file whose content read fails), returns a
`DuplicateAnalysisResult` identical in every field to the run over the
error-free `fs8c` — the errors are swallowed by `filter_map(|e| e.ok())` and
the `if let Ok(..)` skips, and no field of the result (nor anything else the
detector produces) records that any error occurred. -/
theorem C8_counterexample_errors_not_counted :
    DuplicateDetector.find_duplicates σ0 det0 fs8e ["r"]
      = DuplicateDetector.find_duplicates σ0 det0 fs8c ["r"] := by
  decide

/-- C8 as amended: errors during analysis are isolated to the affected file
and the file is silently skipped — nothing is counted. Removing walker errors
changes nothing at all (`scan_files` already drops `err` entries); removing a
path whose metadata is unreadable changes nothing at all (`group_by_size`
already drops it); and for a path `b` whose metadata is fine but whose
content cannot be read (its partial/full hash both fail, so it is silently
dropped inside `calculate_and_group_by_hash`), removing `b` leaves the
returned groups a permutation of the original ones — identical entries, only
the bucket order may differ, matching Rust's arbitrary `HashMap` iteration
order — and all four totals (`total_groups`, `total_files`, `total_size`,
`wasted_space`) unchanged, under cache coherence and collision-freedom of the
digest on the present files. Other files are processed normally either
way. -/
theorem C8_per_file_errors_isolated (σ : List Nat → String) (det : DuplicateDetector)
    (fs : ModelFS) (paths : List String) (b : String) :
    DuplicateDetector.find_duplicates σ det fs.dropErrs paths
        = DuplicateDetector.find_duplicates σ det fs paths ∧
    (fs.lookupFile b = none →
      DuplicateDetector.find_duplicates σ det (fs.dropPath b) paths
        = DuplicateDetector.find_duplicates σ det fs paths) ∧
    (∀ fb, fs.lookupFile b = some fb → fb.readable = false →
      CacheCoherent σ fs det.hash_calculator → ContentInjective σ fs →
      List.Perm (DuplicateDetector.find_duplicates σ det (fs.dropPath b) paths).groups
          (DuplicateDetector.find_duplicates σ det fs paths).groups ∧
      (DuplicateDetector.find_duplicates σ det (fs.dropPath b) paths).total_groups
        = (DuplicateDetector.find_duplicates σ det fs paths).total_groups ∧
      (DuplicateDetector.find_duplicates σ det (fs.dropPath b) paths).total_files
        = (DuplicateDetector.find_duplicates σ det fs paths).total_files ∧
      (DuplicateDetector.find_duplicates σ det (fs.dropPath b) paths).total_size
        = (DuplicateDetector.find_duplicates σ det fs paths).total_size ∧
      (DuplicateDetector.find_duplicates σ det (fs.dropPath b) paths).wasted_space
        = (DuplicateDetector.find_duplicates σ det fs paths).wasted_space) := by
  refine ⟨find_duplicates_dropErrs σ det fs paths,
    fun hb => find_duplicates_dropPath_noMeta σ det fs paths b hb, ?_⟩
  intro fb hb hrb hcoh hinj
  have hgp : List.Perm
      (DuplicateDetector.find_duplicates σ det (fs.dropPath b) paths).groups
      (DuplicateDetector.find_duplicates σ det fs paths).groups := by
    show List.Perm
      (DuplicateDetector.find_duplicates_internal σ det (fs.dropPath b) paths)
      (DuplicateDetector.find_duplicates_internal σ det fs paths)
    simp only [DuplicateDetector.find_duplicates_internal]
    rw [scan_files_dropPath det fs paths b, group_by_size_dropPath, cagbh_dropPath,
      create_groups_dropPath, cagbh_pure σ det fs _ hcoh, cagbh_pure σ det fs _ hcoh]
    exact create_groups_perm fs
      (hashGroups_perm_drop_b σ det fs (DuplicateDetector.scan_files det fs paths)
        b fb hb hrb hinj)
  exact ⟨hgp, hgp.length_eq,
    (hgp.map (fun g : DuplicateGroup => g.files.length)).sum_eq,
    (hgp.map (fun g : DuplicateGroup => g.size * g.files.length)).sum_eq,
    (hgp.map (fun g : DuplicateGroup => g.wasted_space)).sum_eq⟩

/-- Witness for C8: on `fs8`, dropping walk errors and dropping the missing
path "r/x" are no-ops, and dropping the unreadable path "r/c" leaves the
groups a permutation of the original ones (the fresh detector's cache is
empty, and the stand-in digest is injective on the three contents). -/
theorem C8_per_file_errors_isolated_witness :
    DuplicateDetector.find_duplicates σ0 det0 fs8.dropErrs ["r"]
        = DuplicateDetector.find_duplicates σ0 det0 fs8 ["r"] ∧
    DuplicateDetector.find_duplicates σ0 det0 (fs8.dropPath "r/x") ["r"]
        = DuplicateDetector.find_duplicates σ0 det0 fs8 ["r"] ∧
    List.Perm (DuplicateDetector.find_duplicates σ0 det0 (fs8.dropPath "r/c") ["r"]).groups
        (DuplicateDetector.find_duplicates σ0 det0 fs8 ["r"]).groups ∧
    (DuplicateDetector.find_duplicates σ0 det0 (fs8.dropPath "r/c") ["r"]).wasted_space
        = (DuplicateDetector.find_duplicates σ0 det0 fs8 ["r"]).wasted_space :=
  ⟨(C8_per_file_errors_isolated σ0 det0 fs8 ["r"] "r/x").1,
   (C8_per_file_errors_isolated σ0 det0 fs8 ["r"] "r/x").2.1 (by decide),
   ((C8_per_file_errors_isolated σ0 det0 fs8 ["r"] "r/c").2.2 ⟨[7], 3, false⟩
     rfl rfl (by intro ce hce; exact absurd hce (List.not_mem_nil ce))
     (by unfold ContentInjective; decide)).1,
   ((C8_per_file_errors_isolated σ0 det0 fs8 ["r"] "r/c").2.2 ⟨[7], 3, false⟩
     rfl rfl (by intro ce hce; exact absurd hce (List.not_mem_nil ce))
     (by unfold ContentInjective; decide)).2.2.2.2⟩

end DiskTidy
